import Mathlib

/-!
Verification of the nex-intel analysis pipeline against its specification.

The TypeScript sources are shallowly embedded as pure Lean functions:
stateful persistence is explicit state passing, fallible collaborator calls
are environment-supplied outcomes, and JavaScript strings are modelled as
Lean strings over their character lists.  Modelling notes:

* Unicode NFKD decomposition (String.normalize in JS) is modelled by the
  character table nfkdChar below; it agrees with real NFKD on every character
  that can appear in a normalised string (ASCII is NFKD-invariant), which is
  all the idempotence and canonicalisation theorems need.
* JavaScript toLowerCase and toUpperCase are modelled by the ASCII-only
  Char.toLower and Char.toUpper; every character reaching them in the
  modelled pipelines is ASCII or is later replaced by a space, on which the
  two semantics agree.
* A JavaScript Set iterated for scoring is modelled by the list of its
  elements; a JavaScript Map is modelled by an insertion-ordered association
  list, matching the iteration order guaranteed by the language.
-/

namespace NexIntel

/-! Character model -/

/-- Model of Unicode NFKD decomposition per character (String.normalize in
the source).  Characters outside the table decompose to themselves; real
NFKD agrees on all ASCII characters, in particular on everything a
normalised feature string can contain. -/
def nfkdChar (c : Char) : List Char :=
  if c = 'é' then ['e', '́']
  else if c = 'É' then ['E', '́']
  else if c = 'á' then ['a', '́']
  else if c = 'à' then ['a', '̀']
  else if c = 'ä' then ['a', '̈']
  else if c = 'ö' then ['o', '̈']
  else if c = 'ü' then ['u', '̈']
  else if c = 'ñ' then ['n', '̃']
  else if c = 'ç' then ['c', '̧']
  else [c]

/-- Combining diacritical marks, the range stripped by the source regex
matching code points 0x300 through 0x36F. -/
def isCombiningMark (c : Char) : Bool :=
  0x300 ≤ c.toNat && c.toNat ≤ 0x36F

/-- Characters kept by normalizeFeature: the complement of the source regex
NON_ALPHANUM, namely lowercase ASCII letters, digits and the plus sign. -/
def isFeatureChar (c : Char) : Bool :=
  (97 ≤ c.toNat && c.toNat ≤ 122) || (48 ≤ c.toNat && c.toNat ≤ 57) || c.toNat == 43

/-- NFKD decomposition followed by removal of combining marks, the first two
steps of normalizeFeature. -/
def stripDiacritics (cs : List Char) : List Char :=
  (cs.flatMap nfkdChar).filter (fun c => !(isCombiningMark c))

/-- Replacement of a run of spaces by a single space, the MULTISPACE
replacement of the source; the boolean records whether the previous kept
character was a space. -/
def collapseSpacesAux : Bool → List Char → List Char
  | _, [] => []
  | prevSpace, c :: rest =>
    if c = ' ' then
      if prevSpace then collapseSpacesAux true rest
      else ' ' :: collapseSpacesAux true rest
    else c :: collapseSpacesAux false rest

/-- Removal of leading and trailing spaces, the trim step of the source. -/
def trimSpaces (cs : List Char) : List Char :=
  ((cs.dropWhile (fun c => c = ' ')).reverse.dropWhile (fun c => c = ' ')).reverse

/-- Embedding of normalizeFeature from src/lib/normalize.ts: NFKD
decomposition, removal of combining marks, lowercasing, replacement of every
character other than a lowercase letter, digit or plus by a space, collapse
of space runs, and trim. -/
def normalizeFeature (raw : String) : String :=
  String.mk (trimSpaces (collapseSpacesAux false
    (((stripDiacritics raw.toList).map Char.toLower).map
      (fun c => if isFeatureChar c then c else ' '))))

/-- Capitalisation of one token, position zero uppercased and the rest kept,
as in canonicalFeatureName. -/
def capitalizeWord : List Char → List Char
  | [] => []
  | c :: rest => Char.toUpper c :: rest

/-- Embedding of canonicalFeatureName from src/lib/normalize.ts: the
normalised key with each space-separated token capitalised. -/
def canonicalFeatureName (raw : String) : String :=
  let norm := normalizeFeature raw
  if norm = "" then ""
  else String.mk (List.intercalate [' '] ((norm.toList.splitOn ' ').map capitalizeWord))

/-! Helper lemmas about the character pipeline -/

/-- Characters of a normalised string: lowercase alphanumerics, plus, or
space. -/
def isNormChar (c : Char) : Bool := isFeatureChar c || c == ' '

theorem nfkdChar_eq_self {c : Char} (h : isNormChar c = true) : nfkdChar c = [c] := by
  unfold nfkdChar
  split_ifs with h1 h2 h3 h4 h5 h6 h7 h8 h9 <;>
    first
      | rfl
      | (subst_vars; simp [isNormChar, isFeatureChar] at h)

theorem isCombiningMark_eq_false {c : Char} (h : isNormChar c = true) :
    isCombiningMark c = false := by
  simp only [isNormChar, isFeatureChar, Bool.or_eq_true, Bool.and_eq_true,
    decide_eq_true_eq, beq_iff_eq] at h
  have hn : c.toNat < 0x300 := by
    rcases h with ((h | h) | h) | h
    · omega
    · omega
    · omega
    · have : c.toNat = 32 := by rw [h]; rfl
      omega
  simp only [isCombiningMark, Bool.and_eq_false_iff]
  left
  simp only [decide_eq_false_iff_not]
  omega

theorem toLower_eq_self {c : Char} (h : isNormChar c = true) : Char.toLower c = c := by
  simp only [isNormChar, isFeatureChar, Bool.or_eq_true, Bool.and_eq_true,
    decide_eq_true_eq, beq_iff_eq] at h
  have hcond : ¬(c.toNat ≥ 65 ∧ c.toNat ≤ 90) := by
    rcases h with ((h | h) | h) | h
    · omega
    · omega
    · omega
    · have : c.toNat = 32 := by rw [h]; rfl
      omega
  simp [Char.toLower, hcond]

theorem replace_eq_self {c : Char} (h : isNormChar c = true) :
    (if isFeatureChar c then c else ' ') = c := by
  by_cases hf : isFeatureChar c
  · simp [hf]
  · have : c = ' ' := by
      simp only [isNormChar, Bool.or_eq_true, beq_iff_eq] at h
      cases h with
      | inl h => exact absurd h hf
      | inr h => exact h
    simp [hf, this]

/-- Map is the identity when the function fixes every member. -/
theorem map_eq_self_of_mem {α : Type} {f : α → α} {l : List α}
    (h : ∀ x ∈ l, f x = x) : l.map f = l := by
  induction l with
  | nil => rfl
  | cons a l ih =>
    simp only [List.map_cons]
    rw [h a (List.mem_cons_self a l), ih (fun x hx => h x (List.mem_cons_of_mem a hx))]

theorem flatMap_eq_self_of_mem {α : Type} {f : α → List α} {l : List α}
    (h : ∀ x ∈ l, f x = [x]) : l.flatMap f = l := by
  induction l with
  | nil => rfl
  | cons a l ih =>
    simp only [List.flatMap_cons]
    rw [h a (List.mem_cons_self a l), ih (fun x hx => h x (List.mem_cons_of_mem a hx))]
    rfl

/-- Absence of adjacent spaces, stated on neighbouring characters. -/
def NoDoubleSpace (l : List Char) : Prop :=
  l.Chain' (fun a b => ¬(a = ' ' ∧ b = ' '))

theorem collapseSpacesAux_mem {b : Bool} {l : List Char} {c : Char}
    (h : c ∈ collapseSpacesAux b l) : c ∈ l := by
  induction l generalizing b with
  | nil => simp [collapseSpacesAux] at h
  | cons a l ih =>
    simp only [collapseSpacesAux] at h
    split_ifs at h with h1 h2
    · exact List.mem_cons_of_mem a (ih h)
    · rcases List.mem_cons.mp h with h' | h'
      · exact h' ▸ (h1 ▸ List.mem_cons_self a l)
      · exact List.mem_cons_of_mem a (ih h')
    · rcases List.mem_cons.mp h with h' | h'
      · exact h' ▸ List.mem_cons_self a l
      · exact List.mem_cons_of_mem a (ih h')

theorem collapseSpacesAux_head_ne_space {l : List Char} {c : Char} {rest : List Char}
    (h : collapseSpacesAux true l = c :: rest) : ¬ c = ' ' := by
  induction l generalizing c rest with
  | nil => simp [collapseSpacesAux] at h
  | cons a l ih =>
    simp only [collapseSpacesAux] at h
    split_ifs at h with h1
    · exact ih h
    · intro hc
      cases h
      exact h1 hc

theorem collapseSpacesAux_noDouble (b : Bool) (l : List Char) :
    NoDoubleSpace (collapseSpacesAux b l) := by
  induction l generalizing b with
  | nil => simp [collapseSpacesAux, NoDoubleSpace]
  | cons a l ih =>
    simp only [collapseSpacesAux]
    split_ifs with h1 h2
    · exact ih true
    · subst h1
      cases hres : collapseSpacesAux true l with
      | nil => simp [NoDoubleSpace]
      | cons c rest =>
        have htail : NoDoubleSpace (c :: rest) := hres ▸ ih true
        refine List.chain'_cons.mpr ?_
        exact ⟨fun hcc => collapseSpacesAux_head_ne_space hres hcc.2, htail⟩
    · cases hres : collapseSpacesAux false l with
      | nil => simp [NoDoubleSpace]
      | cons c rest =>
        have htail : NoDoubleSpace (c :: rest) := hres ▸ ih false
        have hcmem : c ∈ l := collapseSpacesAux_mem (hres ▸ List.mem_cons_self c rest)
        refine List.chain'_cons.mpr ⟨fun hcc => h1 hcc.1, htail⟩

/-- Collapsing is the identity on a list without adjacent spaces, provided
the previous-space flag matches the head. -/
theorem collapseSpacesAux_eq_self : ∀ (l : List Char) (b : Bool),
    NoDoubleSpace l → (b = true → ∀ c r, l = c :: r → ¬ c = ' ') →
    collapseSpacesAux b l = l := by
  intro l
  induction l with
  | nil => intro b _ _; rfl
  | cons a l ih =>
    intro b hnd hhd
    by_cases ha : a = ' '
    · have hb : b = false := by
        cases b with
        | false => rfl
        | true => exact absurd ha (hhd rfl a l rfl)
      subst hb
      subst ha
      have hstep : collapseSpacesAux false (' ' :: l) = ' ' :: collapseSpacesAux true l := by
        simp [collapseSpacesAux]
      rw [hstep]
      congr 1
      refine ih true (List.chain'_cons'.mp hnd).2 ?_
      intro _ c r hl hc
      subst hl
      exact (List.chain'_cons.mp hnd).1 ⟨rfl, hc⟩
    · have hstep : collapseSpacesAux b (a :: l) = a :: collapseSpacesAux false l := by
        cases b <;> simp [collapseSpacesAux, ha]
      rw [hstep]
      congr 1
      exact ih false (List.chain'_cons'.mp hnd).2 (fun h => absurd h (by simp))

theorem dropWhile_head_not {p : Char → Bool} {l : List Char} {c : Char} {r : List Char}
    (h : l.dropWhile p = c :: r) : p c = false := by
  induction l with
  | nil => simp [List.dropWhile] at h
  | cons a l ih =>
    rw [List.dropWhile_cons] at h
    split_ifs at h with h1
    · exact ih h
    · cases h
      exact Bool.of_not_eq_true h1

theorem dropWhile_eq_self_of_head {p : Char → Bool} {l : List Char}
    (h : ∀ c r, l = c :: r → p c = false) : l.dropWhile p = l := by
  cases l with
  | nil => rfl
  | cons a l =>
    rw [List.dropWhile_cons, if_neg]
    simp [h a l rfl]

theorem chain'_flip_iff {l : List Char} :
    List.Chain' (flip (fun a b : Char => ¬(a = ' ' ∧ b = ' '))) l ↔ NoDoubleSpace l := by
  constructor
  · intro h
    exact h.imp (fun a b hab h2 => hab ⟨h2.2, h2.1⟩)
  · intro h
    exact h.imp (fun a b hab h2 => hab ⟨h2.2, h2.1⟩)

theorem trimSpaces_subset {cs : List Char} : trimSpaces cs ⊆ cs := by
  intro c hc
  unfold trimSpaces at hc
  rw [List.mem_reverse] at hc
  have h1 := (List.dropWhile_suffix _).subset hc
  rw [List.mem_reverse] at h1
  exact (List.dropWhile_suffix _).subset h1

theorem reverse_noDouble {cs : List Char} (h : NoDoubleSpace cs) :
    NoDoubleSpace cs.reverse := by
  unfold NoDoubleSpace
  rw [List.chain'_reverse]
  exact chain'_flip_iff.mpr h

theorem trimSpaces_noDouble {cs : List Char} (h : NoDoubleSpace cs) :
    NoDoubleSpace (trimSpaces cs) := by
  unfold trimSpaces
  apply reverse_noDouble
  exact (reverse_noDouble (h.suffix (List.dropWhile_suffix _))).suffix
    (List.dropWhile_suffix _)

theorem trimSpaces_head_not {cs : List Char} {c : Char} {r : List Char}
    (h : trimSpaces cs = c :: r) : ¬ c = ' ' := by
  unfold trimSpaces at h
  have hhead : (((cs.dropWhile (fun c => c = ' ')).reverse.dropWhile
      (fun c => c = ' ')).reverse).head? = some c := by rw [h]; rfl
  rw [List.head?_reverse] at hhead
  obtain ⟨t, ht⟩ := List.dropWhile_suffix (l := (cs.dropWhile (fun c => c = ' ')).reverse)
    (fun c => c = ' ')
  have hlast : ((cs.dropWhile (fun c => c = ' ')).reverse).getLast? = some c := by
    rw [← ht, List.getLast?_append, hhead]
    rfl
  rw [List.getLast?_reverse] at hlast
  cases hd : cs.dropWhile (fun c => c = ' ') with
  | nil => rw [hd] at hlast; simp at hlast
  | cons a l =>
    rw [hd] at hlast
    simp only [List.head?_cons, Option.some.injEq] at hlast
    subst hlast
    have := dropWhile_head_not hd
    simpa using this

theorem trimSpaces_getLast_not {cs : List Char} {c : Char}
    (h : (trimSpaces cs).getLast? = some c) : ¬ c = ' ' := by
  unfold trimSpaces at h
  rw [List.getLast?_reverse] at h
  cases hd : (cs.dropWhile (fun c => c = ' ')).reverse.dropWhile (fun c => c = ' ') with
  | nil => rw [hd] at h; simp at h
  | cons a l =>
    rw [hd] at h
    simp only [List.head?_cons, Option.some.injEq] at h
    subst h
    have := dropWhile_head_not hd
    simpa using this

theorem trimSpaces_eq_self {cs : List Char}
    (hh : ∀ c r, cs = c :: r → ¬ c = ' ')
    (hl : ∀ c, cs.getLast? = some c → ¬ c = ' ') : trimSpaces cs = cs := by
  unfold trimSpaces
  have e1 : cs.dropWhile (fun c => c = ' ') = cs :=
    dropWhile_eq_self_of_head (fun c r hcr => by simpa using hh c r hcr)
  rw [e1]
  have e2 : cs.reverse.dropWhile (fun c => c = ' ') = cs.reverse :=
    dropWhile_eq_self_of_head (fun c r hcr => by
      have hh2 : cs.reverse.head? = some c := by rw [hcr]; rfl
      rw [List.head?_reverse] at hh2
      simpa using hl c hh2)
  rw [e2, List.reverse_reverse]

/-- Every character of a normalizeFeature output is a lowercase
alphanumeric, plus, or space, with no adjacent or leading or trailing
spaces. -/
theorem normalizeFeature_props (x : String) :
    (∀ c ∈ (normalizeFeature x).toList, isNormChar c = true) ∧
    NoDoubleSpace (normalizeFeature x).toList ∧
    (∀ c r, (normalizeFeature x).toList = c :: r → ¬ c = ' ') ∧
    (∀ c, (normalizeFeature x).toList.getLast? = some c → ¬ c = ' ') := by
  have houtlist : (normalizeFeature x).toList =
      trimSpaces (collapseSpacesAux false
        (((stripDiacritics x.toList).map Char.toLower).map
          (fun c => if isFeatureChar c then c else ' '))) := rfl
  refine ⟨?_, ?_, ?_, ?_⟩
  · intro c hc
    rw [houtlist] at hc
    have h1 := collapseSpacesAux_mem (trimSpaces_subset hc)
    rcases List.mem_map.mp h1 with ⟨a, _, ha⟩
    by_cases hf : isFeatureChar a
    · rw [if_pos hf] at ha
      subst ha
      simp [isNormChar, hf]
    · rw [if_neg hf] at ha
      subst ha
      simp [isNormChar]
  · rw [houtlist]
    exact trimSpaces_noDouble (collapseSpacesAux_noDouble false _)
  · rw [houtlist]
    intro c r h
    exact trimSpaces_head_not h
  · rw [houtlist]
    intro c h
    exact trimSpaces_getLast_not h

theorem normalizeFeature_idem (x : String) :
    normalizeFeature (normalizeFeature x) = normalizeFeature x := by
  obtain ⟨hmem, hnd, hhd, hlast⟩ := normalizeFeature_props x
  have h1 : stripDiacritics (normalizeFeature x).toList = (normalizeFeature x).toList := by
    unfold stripDiacritics
    rw [flatMap_eq_self_of_mem (fun c hc => nfkdChar_eq_self (hmem c hc))]
    rw [List.filter_eq_self.mpr (fun c hc => by
      simp [isCombiningMark_eq_false (hmem c hc)])]
  have h2 : (normalizeFeature x).toList.map Char.toLower = (normalizeFeature x).toList :=
    map_eq_self_of_mem (fun c hc => toLower_eq_self (hmem c hc))
  have h3 : (normalizeFeature x).toList.map (fun c => if isFeatureChar c then c else ' ') =
      (normalizeFeature x).toList :=
    map_eq_self_of_mem (fun c hc => replace_eq_self (hmem c hc))
  have h4 : collapseSpacesAux false (normalizeFeature x).toList = (normalizeFeature x).toList :=
    collapseSpacesAux_eq_self _ false hnd (fun h => nomatch h)
  have h5 : trimSpaces (normalizeFeature x).toList = (normalizeFeature x).toList :=
    trimSpaces_eq_self hhd hlast
  show String.mk (trimSpaces (collapseSpacesAux false
    (((stripDiacritics (normalizeFeature x).toList).map Char.toLower).map
      (fun c => if isFeatureChar c then c else ' ')))) = normalizeFeature x
  rw [h1, h2, h3, h4, h5]
  exact String.ext rfl

/-- C6: normalizeFeature is idempotent, and case and diacritic insensitive
on the Café versus cafe example: applying it twice equals applying it once
for every string, and the accented capitalised spelling normalises to the
same key as the plain lowercase spelling. -/
theorem C6_normalizeFeature_idempotent_and_insensitive :
    (∀ x : String, normalizeFeature (normalizeFeature x) = normalizeFeature x) ∧
    normalizeFeature "Café" = normalizeFeature "cafe" :=
  ⟨normalizeFeature_idem, by decide⟩

/-! Feature Definition Registry (src/unnamed/part_006, ensureFeatureDefinitions).
The persistence collaborator is modelled by explicit state passing: the
catalog list stands for the featureDefinition table and nextId for the id
generator; findMany, create and update become list operations. -/

inductive FeatureOrigin
  | USER
  | COMPETITOR
  | SYSTEM
deriving DecidableEq, Repr

structure FeatureDefinition where
  id : Nat
  name : String
  normalized : String
  description : Option String
  category : Option String
  origin : FeatureOrigin
  aliases : List String
deriving DecidableEq, Repr

structure NormalizedEntry where
  original : String
  normalized : String
  canonical : String
deriving DecidableEq, Repr

/-- Model of the JavaScript String trim used on each input name. -/
def jsTrim (s : String) : String := String.mk (trimSpaces s.toList)

/-- Cleaning and normalisation of the input names: trim, drop empties, then
record original, normalized and canonical forms. -/
def normalizedEntriesOf (names : List String) : List NormalizedEntry :=
  ((names.map jsTrim).filter (fun n => n ≠ "")).map
    (fun name => ⟨name, normalizeFeature name, canonicalFeatureName name⟩)

/-- Lookup in an insertion-ordered association list, the model of a
JavaScript Map. -/
def alistGet {β : Type} (k : String) : List (String × β) → Option β
  | [] => none
  | (k2, v) :: rest => if k2 = k then some v else alistGet k rest

/-- Insertion into an insertion-ordered association list: replace in place
when the key exists, append otherwise, as JavaScript Map set does. -/
def alistSet {β : Type} (k : String) (v : β) : List (String × β) → List (String × β)
  | [] => [(k, v)]
  | (k2, v2) :: rest => if k2 = k then (k2, v) :: rest else (k2, v2) :: alistSet k v rest

def alistGetNat {β : Type} (k : Nat) : List (Nat × β) → Option β
  | [] => none
  | (k2, v) :: rest => if k2 = k then some v else alistGetNat k rest

def alistSetNat {β : Type} (k : Nat) (v : β) : List (Nat × β) → List (Nat × β)
  | [] => [(k, v)]
  | (k2, v2) :: rest => if k2 = k then (k2, v) :: rest else (k2, v2) :: alistSetNat k v rest

/-- Model of a JavaScript Set built from a list: first occurrences in
insertion order. -/
def jsSetOfList (l : List String) : List String :=
  l.foldl (fun acc s => if s ∈ acc then acc else acc ++ [s]) []

/-- Creation loop of ensureFeatureDefinitions: one new definition per
normalized key with no existing definition, with the alias list seeded with
the original spelling when the canonical form differs. -/
def createLoop (origin : FeatureOrigin) (category : Option String) :
    List NormalizedEntry → List (String × FeatureDefinition) → List FeatureDefinition → Nat →
    List (String × FeatureDefinition) × List FeatureDefinition × Nat
  | [], byNorm, created, nextId => (byNorm, created, nextId)
  | e :: rest, byNorm, created, nextId =>
    match alistGet e.normalized byNorm with
    | some _ => createLoop origin category rest byNorm created nextId
    | none =>
      let d : FeatureDefinition :=
        { id := nextId
          name := if e.canonical ≠ "" then e.canonical else e.original
          normalized := e.normalized
          description := none
          category := category
          origin := origin
          aliases := if e.canonical ≠ "" ∧ e.canonical ≠ e.original then [e.original] else [] }
      createLoop origin category rest (alistSet e.normalized d byNorm) (created ++ [d]) (nextId + 1)

/-- Alias accumulation for one entry against the definition recorded for its
normalized key. -/
def nextAliasesFor (d : FeatureDefinition) (e : NormalizedEntry) : List String :=
  let canonical := if e.canonical ≠ "" then e.canonical else e.original
  let a0 := jsSetOfList d.aliases
  let a1 := if d.name ≠ canonical ∧ canonical ∉ a0 then a0 ++ [canonical] else a0
  if e.original ≠ "" ∧ e.original ≠ canonical ∧ e.original ∉ a1 then a1 ++ [e.original] else a1

/-- Order-insensitive comparison of alias lists, the sorted-JSON comparison
of the source. -/
def aliasMultisetEq (a b : List String) : Bool :=
  decide ((a : Multiset String) = (b : Multiset String))

/-- Alias-update loop: records, keyed by definition id with last write
winning, the alias lists that differ from the stored ones. -/
def aliasUpdatesLoop (byNorm : List (String × FeatureDefinition)) :
    List NormalizedEntry → List (Nat × List String) → List (Nat × List String)
  | [], upd => upd
  | e :: rest, upd =>
    match alistGet e.normalized byNorm with
    | none => aliasUpdatesLoop byNorm rest upd
    | some d =>
      let na := nextAliasesFor d e
      if aliasMultisetEq na d.aliases then aliasUpdatesLoop byNorm rest upd
      else aliasUpdatesLoop byNorm rest (alistSetNat d.id na upd)

/-- Embedding of ensureFeatureDefinitions: returns the definitions indexed
by normalized key (as stored in the in-memory map, before alias updates, as
in the source), together with the updated catalog and id counter. -/
def ensureFeatureDefinitions (names : List String) (origin : FeatureOrigin)
    (category : Option String) (catalog : List FeatureDefinition) (nextId : Nat) :
    List FeatureDefinition × List FeatureDefinition × Nat :=
  let entries := normalizedEntriesOf names
  if entries.isEmpty then ([], catalog, nextId)
  else
    let normalizedSet := jsSetOfList (entries.map (·.normalized))
    let existing := catalog.filter (fun d => d.normalized ∈ normalizedSet)
    let byNorm0 := existing.foldl (fun m d => alistSet d.normalized d m) []
    let res := createLoop origin category entries byNorm0 [] nextId
    let updates := aliasUpdatesLoop res.1 entries []
    let catalogAfter := (catalog ++ res.2.1).map (fun d =>
      match alistGetNat d.id updates with
      | some a => { d with aliases := a }
      | none => d)
    (res.1.map (·.2), catalogAfter, res.2.2)

/-- C2 counterexample: ensureFeatureDefinitions on the names SSO and
Single Sign-On against an empty catalog returns two FeatureDefinitions, not
one, because normalizeFeature applies no synonym mapping and the two names
normalise to the distinct keys sso and single sign on. -/
theorem C2_counterexample_two_definitions :
    ((ensureFeatureDefinitions ["SSO", "Single Sign-On"]
      FeatureOrigin.COMPETITOR none [] 0).1).length = 2 := by decide

/-- C2 amended: ensureFeatureDefinitions on SSO and Single Sign-On against
an empty catalog returns exactly one definition per distinct normalized key,
namely two definitions; each carries its own original spelling as its only
alias, since for each the canonical display form differs from the raw
form. -/
theorem C2_amended_one_definition_per_normalized_key :
    (ensureFeatureDefinitions ["SSO", "Single Sign-On"]
      FeatureOrigin.COMPETITOR none [] 0).1 =
    [{ id := 0, name := "Sso", normalized := "sso", description := none,
       category := none, origin := FeatureOrigin.COMPETITOR, aliases := ["SSO"] },
     { id := 1, name := "Single Sign On", normalized := "single sign on",
       description := none, category := none, origin := FeatureOrigin.COMPETITOR,
       aliases := ["Single Sign-On"] }] := by decide

/-! Feature first-wins dedup before persistence
(src/app/api/runs/orchestrator.ts, featureByKey). -/

structure FeatureCandidate where
  name : String
  normalized : String
  sourceId : String
  description : Option String
  competitorId : Option String
deriving DecidableEq, Repr

/-- Key under which a feature candidate is deduplicated: the competitor id,
or the literal string global when there is none, joined with the normalized
name, exactly the template string of the source. -/
def featureKey (c : FeatureCandidate) : String :=
  (match c.competitorId with
    | some cid => cid
    | none => "global") ++ "|" ++ c.normalized

/-- First-wins deduplication loop, the featureByKey map of the source; the
map values in insertion order are the kept candidates in input order. -/
def dedupFeatureCandidatesAux : List FeatureCandidate → List String → List FeatureCandidate
  | [], _ => []
  | c :: rest, seen =>
    if featureKey c ∈ seen then dedupFeatureCandidatesAux rest seen
    else c :: dedupFeatureCandidatesAux rest (seen ++ [featureKey c])

/-- Candidates actually persisted as Feature rows: the first candidate per
key, in input order. -/
def dedupFeatureCandidates (cands : List FeatureCandidate) : List FeatureCandidate :=
  dedupFeatureCandidatesAux cands []

theorem dedupAux_key_notin_seen : ∀ (cands : List FeatureCandidate) (seen : List String)
    (c : FeatureCandidate), c ∈ dedupFeatureCandidatesAux cands seen →
    featureKey c ∉ seen := by
  intro cands
  induction cands with
  | nil => intro seen c h; simp [dedupFeatureCandidatesAux] at h
  | cons a rest ih =>
    intro seen c h
    simp only [dedupFeatureCandidatesAux] at h
    split_ifs at h with h1
    · exact ih seen c h
    · rcases List.mem_cons.mp h with h' | h'
      · subst h'; exact h1
      · intro hmem
        exact ih _ c h' (List.mem_append_left _ hmem)

theorem dedupAux_keys_nodup : ∀ (cands : List FeatureCandidate) (seen : List String),
    ((dedupFeatureCandidatesAux cands seen).map featureKey).Nodup := by
  intro cands
  induction cands with
  | nil => intro seen; simp [dedupFeatureCandidatesAux]
  | cons a rest ih =>
    intro seen
    simp only [dedupFeatureCandidatesAux]
    split_ifs with h1
    · exact ih seen
    · simp only [List.map_cons, List.nodup_cons]
      refine ⟨?_, ih _⟩
      intro hmem
      rcases List.mem_map.mp hmem with ⟨c, hc, hkey⟩
      exact dedupAux_key_notin_seen _ _ c hc
        (List.mem_append_right _ (hkey ▸ List.mem_singleton_self _))

theorem dedupAux_filter_seen {k : String} : ∀ (cands : List FeatureCandidate)
    (seen : List String), k ∈ seen →
    (dedupFeatureCandidatesAux cands seen).filter (fun c => featureKey c == k) = [] := by
  intro cands
  induction cands with
  | nil => intro seen _; rfl
  | cons a rest ih =>
    intro seen hk
    simp only [dedupFeatureCandidatesAux]
    split_ifs with h1
    · exact ih seen hk
    · rw [List.filter_cons]
      have hne : ¬ (featureKey a == k) = true := by
        simp only [beq_iff_eq]
        intro heq
        exact h1 (heq ▸ hk)
      rw [if_neg hne]
      exact ih _ (List.mem_append_left _ hk)

theorem dedupAux_filter_new {k : String} : ∀ (cands : List FeatureCandidate)
    (seen : List String), k ∉ seen →
    (dedupFeatureCandidatesAux cands seen).filter (fun c => featureKey c == k) =
    (cands.filter (fun c => featureKey c == k)).take 1 := by
  intro cands
  induction cands with
  | nil => intro seen _; rfl
  | cons a rest ih =>
    intro seen hk
    simp only [dedupFeatureCandidatesAux]
    split_ifs with h1
    · have hne : ¬ (featureKey a == k) = true := by
        simp only [beq_iff_eq]
        intro heq
        exact hk (heq ▸ h1)
      rw [List.filter_cons, if_neg hne]
      exact ih seen hk
    · by_cases hak : featureKey a = k
      · have hbeq : (featureKey a == k) = true := beq_iff_eq.mpr hak
        rw [List.filter_cons, if_pos hbeq, List.filter_cons, if_pos hbeq]
        subst hak
        rw [dedupAux_filter_seen rest _
          (List.mem_append_right _ (List.mem_singleton_self _))]
        simp
      · have hbeq : ¬ (featureKey a == k) = true := by simp [hak]
        rw [List.filter_cons, if_neg hbeq, List.filter_cons, if_neg hbeq]
        refine ih _ ?_
        intro hmem
        rcases List.mem_append.mp hmem with h' | h'
        · exact hk h'
        · exact hak (List.mem_singleton.mp h').symm

/-- C7 counterexample: a null-competitor candidate followed by a candidate
whose competitorId is the literal string global.  The two candidates have
different pairs of competitorId-or-null and normalized name, and the second
is the first candidate carrying its pair, yet it is discarded, because the
persistence key encodes a missing competitor as the string global and the
two keys collide. -/
theorem C7_counterexample_global_key_collision :
    dedupFeatureCandidates
      [{ name := "X", normalized := "x", sourceId := "s1", description := none,
         competitorId := none },
       { name := "X", normalized := "x", sourceId := "s2", description := none,
         competitorId := some "global" }] =
      [{ name := "X", normalized := "x", sourceId := "s1", description := none,
         competitorId := none }] ∧
    (some "global" : Option String) ≠ (none : Option String) := by
  constructor
  · decide
  · decide

/-- C7 amended: within one run at most one Feature row is persisted per
dedup key, where the key is the string built from the competitor id, or the
literal global when null, and the normalized name; for every key the
persisted candidate is exactly the first input candidate carrying that key,
and later candidates with the same key are discarded.  On candidate lists in
which no competitor id is the literal string global this coincides with the
claimed pair of competitorId-or-null and normalized. -/
theorem C7_amended_first_wins_per_encoded_key (cands : List FeatureCandidate) :
    ((dedupFeatureCandidates cands).map featureKey).Nodup ∧
    ∀ k : String, (dedupFeatureCandidates cands).filter (fun c => featureKey c == k) =
      (cands.filter (fun c => featureKey c == k)).take 1 :=
  ⟨dedupAux_keys_nodup cands [], fun k =>
    dedupAux_filter_new cands [] (List.not_mem_nil k)⟩

/-! Discovery per-query selection (src/app/api/runs/orchestrator.ts,
lines 161 through 199).  The platform URL parser behind normalizeUrl is an
external collaborator and is passed as a function parameter; it returns the
normalised URL, or the empty string for an unparsable input, as the source
helper does. -/

structure SearchResult where
  title : Option String
  url : String
  snippet : Option String
deriving DecidableEq, Repr

/-- Lowercasing of a whole string, the JavaScript toLowerCase. -/
def jsToLowerStr (s : String) : String := String.mk (s.toList.map Char.toLower)

/-- Substring test, the JavaScript String includes. -/
def strIncludes (hay needle : String) : Bool :=
  hay.toList.tails.any (fun t => needle.toList.isPrefixOf t)

/-- Prefix test on the character lists of two strings. -/
def strIsPrefixOf (pre s : String) : Bool := pre.toList.isPrefixOf s.toList

/-- Searchable body of a result: title, snippet and url joined by spaces and
lowercased. -/
def resultBody (r : SearchResult) : String :=
  jsToLowerStr ((r.title.getD "") ++ " " ++ (r.snippet.getD "") ++ " " ++ r.url)

/-- Relevance score of one result: one point per matching token, two when
the token has six or more characters, an accept-by-default score of one when
the token set is empty, plus two per competitor name appearing in the
body. -/
def resultScore (relevanceTokens : List String) (inputCompetitors : List String)
    (r : SearchResult) : Nat :=
  let body := resultBody r
  let base := if relevanceTokens.isEmpty then 1
    else relevanceTokens.foldl (fun acc token =>
      if token.length < 3 then acc
      else if strIncludes body token then acc + (if 6 ≤ token.length then 2 else 1)
      else acc) 0
  inputCompetitors.foldl (fun acc comp =>
    if strIncludes body (jsToLowerStr comp) then acc + 2 else acc) base

/-- A result enters the fallback list when its normalised URL is non-empty
and was not already seen in this run. -/
def eligibleResult (normUrl : String → String) (seen : List String)
    (r : SearchResult) : Bool :=
  let url := normUrl r.url
  (!(url == "")) && (!(seen.contains url))

/-- Per-query selection: the scored eligible results when any scores above
zero, otherwise the first three eligible results. -/
def selectQueryResults (normUrl : String → String) (relevanceTokens : List String)
    (inputCompetitors : List String) (seen : List String)
    (results : List SearchResult) : List SearchResult :=
  let fallback := results.filter (eligibleResult normUrl seen)
  let relevant := fallback.filter
    (fun r => decide (0 < resultScore relevanceTokens inputCompetitors r))
  if relevant.isEmpty then fallback.take 3 else relevant

def c3resultA : SearchResult := { title := some "A page", url := "https://a.com/", snippet := none }

def c3resultB : SearchResult := { title := some "B page", url := "https://b.com/", snippet := none }

/-- C3 counterexample: with relevance token zebra, no competitor boost, and
the first URL already seen from an earlier query, both results score zero
but the selection is only the second result, not the first three raw
results; and a raw result whose URL normalises to the empty string yields an
empty selection from a non-empty raw list.  The identity function models the
platform URL parser here, which returns these already-normalised https URLs
unchanged and the empty string for the empty input. -/
theorem C3_counterexample_seen_and_invalid_urls :
    selectQueryResults (fun s => s) ["zebra"] [] ["https://a.com/"]
        [c3resultA, c3resultB] = [c3resultB] ∧
    [c3resultB] ≠ [c3resultA, c3resultB] ∧
    selectQueryResults (fun s => s) [] [] []
        [{ title := none, url := "", snippet := none }] = [] := by
  refine ⟨by decide, by decide, by decide⟩

/-- C3 amended: writing eligible for the results of a query whose normalised
URL is non-empty and unseen, the selection equals the first three eligible
results when every eligible result scores zero, is non-empty whenever some
eligible result exists, and equals exactly the eligible results with
positive score when one exists. -/
theorem C3_amended_selection_policy (normUrl : String → String)
    (tokens comps seen : List String) (results : List SearchResult) :
    ((∀ r ∈ results.filter (eligibleResult normUrl seen),
        resultScore tokens comps r = 0) →
      selectQueryResults normUrl tokens comps seen results =
        (results.filter (eligibleResult normUrl seen)).take 3) ∧
    (results.filter (eligibleResult normUrl seen) ≠ [] →
      selectQueryResults normUrl tokens comps seen results ≠ []) ∧
    ((∃ r ∈ results.filter (eligibleResult normUrl seen),
        0 < resultScore tokens comps r) →
      selectQueryResults normUrl tokens comps seen results =
        (results.filter (eligibleResult normUrl seen)).filter
          (fun r => decide (0 < resultScore tokens comps r))) := by
  refine ⟨?_, ?_, ?_⟩
  · intro hzero
    unfold selectQueryResults
    have hrel : (results.filter (eligibleResult normUrl seen)).filter
        (fun r => decide (0 < resultScore tokens comps r)) = [] := by
      rw [List.filter_eq_nil_iff]
      intro r hr
      simp [hzero r hr]
    simp [hrel]
  · intro hne
    unfold selectQueryResults
    dsimp only
    split_ifs with hempty
    · cases hcase : results.filter (eligibleResult normUrl seen) with
      | nil => exact absurd hcase hne
      | cons a t => simp [hcase]
    · intro hnil
      rw [hnil] at hempty
      simp at hempty
  · intro hex
    unfold selectQueryResults
    dsimp only
    rcases hex with ⟨r, hr, hscore⟩
    have hmem : r ∈ (results.filter (eligibleResult normUrl seen)).filter
        (fun r => decide (0 < resultScore tokens comps r)) :=
      List.mem_filter.mpr ⟨hr, by simpa using hscore⟩
    cases hcase : (results.filter (eligibleResult normUrl seen)).filter
        (fun r => decide (0 < resultScore tokens comps r)) with
    | nil =>
      rw [hcase] at hmem
      exact absurd hmem (List.not_mem_nil r)
    | cons a t => simp

/-- C3 witness: the amended selection policy evaluated at concrete inputs,
one all-zero-score query falling back to the first three eligible results,
and one query with a positive score selecting exactly the scorers. -/
theorem C3_amended_selection_policy_witness :
    selectQueryResults (fun s => s) ["zebra"] [] []
        [c3resultA, c3resultB] = [c3resultA, c3resultB] ∧
    selectQueryResults (fun s => s) ["page"] [] []
        [c3resultA, c3resultB] = [c3resultA, c3resultB] := by
  constructor
  · have h := (C3_amended_selection_policy (fun s => s) ["zebra"] [] []
      [c3resultA, c3resultB]).1 (by decide)
    rw [h]
    decide
  · have h := (C3_amended_selection_policy (fun s => s) ["page"] [] []
      [c3resultA, c3resultB]).2.2 ⟨c3resultA, by decide, by decide⟩
    rw [h]
    decide

/-! Synthesis: deterministic COMMON_FEATURE and DIFFERENTIATOR findings and
pickAnySource (src/app/api/runs/orchestrator.ts, lines 576 through 606, 761
through 772 and 1338 through 1340). -/

structure Capability where
  category : String
  name : String
  normalized : String
deriving DecidableEq, Repr

structure SourceRow where
  id : String
  url : String
  title : Option String
deriving DecidableEq, Repr

inductive FindingKind
  | GAP
  | DIFFERENTIATOR
  | COMMON_FEATURE
  | RISK
  | RECOMMENDATION
  | INSIGHT
deriving DecidableEq, Repr

/-- A synthesized finding.  Confidence is modelled in integer hundredths
(0.7 becomes 70) so that all confidence arithmetic stays in Nat and is
kernel-computable; every confidence constant in the source is an exact
multiple of 0.05. -/
structure Finding where
  kind : FindingKind
  text : String
  confidence : Nat
  citations : List String
deriving DecidableEq, Repr

/-- Embedding of pickAnySource: the id of the first source, or null. -/
def pickAnySource (sources : List SourceRow) : Option String :=
  sources.head?.map (fun s => s.id)

/-- Insertion-ordered grouping of capabilities by category and lowercased
normalized name, the capByKey object of the source. -/
def groupByKey (caps : List Capability) : List (String × List Capability) :=
  caps.foldl (fun acc c =>
    let k := c.category ++ "|" ++ jsToLowerStr c.normalized
    match alistGet k acc with
    | some l => alistSet k (l ++ [c]) acc
    | none => acc ++ [(k, [c])]) []

/-- Split of a group key at the bar, recovering category and normalized
name. -/
def splitBar (k : String) : String × String :=
  match k.toList.splitOn '|' with
  | [] => ("", "")
  | [a] => (String.mk a, "")
  | a :: b :: _ => (String.mk a, String.mk b)

/-- COMMON_FEATURE findings: the ten largest groups of the top fifteen by
stable descending instance count, each citing up to three results of
pickAnySource.  The JavaScript engine sort is stable and its comparator here
is the total preorder on instance counts, so the sorted list is the unique
stable descending reordering; insertion sort computes it. -/
def commonFeatureFindings (caps : List Capability) (sources : List SourceRow) :
    List Finding :=
  if caps.length = 0 then []
  else
    let groups := groupByKey caps
    let common := (groups.insertionSort
      (fun a b => b.2.length ≤ a.2.length)).take 15
    (common.take 10).map (fun g =>
      let cat := (splitBar g.1).1
      let norm := (splitBar g.1).2
      let sourceIds := (g.2.map (fun _ => pickAnySource sources)).filterMap id
      { kind := .COMMON_FEATURE,
        text := cat ++ ": \"" ++ norm ++ "\" appears across " ++
          toString g.2.length ++ " sources, indicating this is a market standard.",
        confidence := min 90 (60 + g.2.length * 5),
        citations := sourceIds.take 3 })

/-- DIFFERENTIATOR findings: when at least five capabilities exist, up to
ten singleton groups, each citing the result of pickAnySource when
present. -/
def differentiatorFindings (caps : List Capability) (sources : List SourceRow) :
    List Finding :=
  let groups := groupByKey caps
  let rare := if 0 < caps.length then
    (groups.filter (fun g => g.2.length == 1)).take 10 else []
  if 5 ≤ caps.length then
    rare.map (fun g =>
      let cat := (splitBar g.1).1
      let norm := (splitBar g.1).2
      let sourceId := pickAnySource sources
      { kind := .DIFFERENTIATOR,
        text := "Potential differentiator: " ++ cat ++ " — \"" ++ norm ++
          "\" appears uniquely in the market. This could be a competitive advantage.",
        confidence := 60,
        citations := match sourceId with
          | some s => [s]
          | none => [] })
  else []

theorem mem_filterMap_const_pick {α : Type} {l : List α} {x : Option String} {c : String}
    (h : c ∈ (l.map (fun _ => x)).filterMap id) : x = some c := by
  rcases List.mem_filterMap.mp h with ⟨a, ha, hid⟩
  rcases List.mem_map.mp ha with ⟨b, _, hax⟩
  have hxa : x = a := by simpa using hax
  rw [hxa]
  exact hid

/-- C10: every citation of a deterministic COMMON_FEATURE or DIFFERENTIATOR
finding is the id of the first source in the run's source list, because
pickAnySource always returns the first source; a finding therefore cites at
most one distinct source even when its citation list has up to three
entries. -/
theorem C10_deterministic_citations_first_source_only
    (caps : List Capability) (sources : List SourceRow) (f : Finding)
    (hf : f ∈ commonFeatureFindings caps sources ++ differentiatorFindings caps sources)
    (c : String) (hc : c ∈ f.citations) :
    pickAnySource sources = some c := by
  rcases List.mem_append.mp hf with hf | hf
  · unfold commonFeatureFindings at hf
    split_ifs at hf with h0
    · simp at hf
    · rcases List.mem_map.mp hf with ⟨g, _, hg⟩
      subst hg
      simp only at hc
      have hc3 := List.take_subset 3 _ hc
      exact mem_filterMap_const_pick hc3
  · unfold differentiatorFindings at hf
    dsimp only at hf
    by_cases h5 : 5 ≤ caps.length
    · have h0 : 0 < caps.length := by omega
      rw [if_pos h5, if_pos h0] at hf
      rcases List.mem_map.mp hf with ⟨g, _, hg⟩
      subst hg
      simp only at hc
      cases hpick : pickAnySource sources with
      | none => rw [hpick] at hc; simp at hc
      | some s =>
        rw [hpick] at hc
        simp only [List.mem_singleton] at hc
        rw [hc]
    · rw [if_neg h5] at hf
      simp at hf

/-- C10 witness: on a one-capability, one-source run the COMMON_FEATURE
finding carries citation s1, and the theorem instantiated there shows it is
the first source's id. -/
theorem C10_deterministic_citations_first_source_only_witness :
    pickAnySource [{ id := "s1", url := "https://a.com/", title := none }] = some "s1" :=
  C10_deterministic_citations_first_source_only
    [{ category := "Security", name := "SSO", normalized := "sso" }]
    [{ id := "s1", url := "https://a.com/", title := none }]
    { kind := .COMMON_FEATURE,
      text := "Security: \"sso\" appears across 1 sources, indicating this is a market standard.",
      confidence := 65,
      citations := ["s1"] }
    (by decide) "s1" (by decide)

/-! Guardrail validator (src/app/api/runs/orchestrator.ts, runGuardrails,
lines 1299 through 1336).  The four persistence reads are modelled as a
snapshot argument; the body is a pure function of it.  The fetch-failure
threshold length times 0.3 is modelled exactly as 3 times total less than
10 times failed, which agrees with the float comparison for all realistic
source counts. -/

structure GuardSource where
  id : String
  status : String
  notes : Option String
deriving DecidableEq, Repr

structure GuardState where
  sources : List GuardSource
  findings : List Finding
  capabilities : List Capability
  competitors : List String
deriving DecidableEq, Repr

def optIncludes (o : Option String) (needle : String) : Bool :=
  match o with
  | some s => strIncludes s needle
  | none => false

/-- Embedding of runGuardrails: a fixed battery of checks producing
human-readable issue strings and a summary; it never touches the run
status. -/
def runGuardrails (st : GuardState) (stalenessDays : Nat) : String × List String :=
  let missing := st.findings.filter (fun f => f.citations.isEmpty)
  let c1 : List String := if missing.length ≠ 0 then
      ["Findings without citations: " ++ toString missing.length] else []
  let c2 : List String := if st.sources.length < 5 then
      ["Low source count: Only " ++ toString st.sources.length ++
        " sources found. Consider expanding search queries."] else []
  let c3 : List String := if st.capabilities.length < 10 then
      ["Low capability count: Only " ++ toString st.capabilities.length ++
        " capabilities extracted. May indicate limited source content."] else []
  let c4 : List String := if st.competitors.length = 0 then
      ["No competitors identified. Consider adding competitor names to project inputs."]
    else []
  let staleCount := (st.sources.filter (fun s => optIncludes s.notes "Stale source")).length
  let c5 : List String := if 0 < staleCount then
      ["Stale sources detected: " ++ toString staleCount ++
        " sources are older than " ++ toString stalenessDays ++ " days"] else []
  let failedCount := (st.sources.filter (fun s => s.status == "ERROR")).length
  let c6 : List String := if 3 * st.sources.length < 10 * failedCount then
      ["High source fetch failure rate: " ++ toString failedCount ++ "/" ++
        toString st.sources.length ++ " sources failed to fetch"] else []
  let issues := c1 ++ c2 ++ c3 ++ c4 ++ c5 ++ c6
  (if issues.length ≠ 0 then "Guardrails found issues" else "All checks passed", issues)


/-! Run orchestrator control flow (src/app/api/runs/orchestrator.ts,
orchestrateRun and setStatus).  The environment supplies one boolean per
fallible collaborator call site: true means the awaited call succeeds, false
that it throws.  Per-item failures that the source catches and logs
(individual search queries, individual fetches that are then successfully
marked ERROR, competitor upserts, AI extraction, standardization, pricing
parsing, change detection, notification) never escape their item and need
no environment field; fetchLoopOk is false only for the one uncaught path
in the fetch loop, a failing source update inside the catch handler.
appendLog swallows its own failures and cannot throw.  The result boolean
is true when orchestrateRun returns normally and false when it rethrows;
the trace lists the statuses persisted by successful setStatus calls in
order. -/

inductive RunStatus
  | NEW
  | DISCOVERING
  | EXTRACTING
  | SYNTHESIZING
  | QA
  | COMPLETE
  | ERROR
  | SKIPPED
deriving DecidableEq, Repr

structure OrchEnv where
  runLookupOk : Bool
  runFound : Option RunStatus
  stDiscovering : Bool
  settingsOk : Bool
  makeSearchOk : Bool
  sourcesTxnOk : Bool
  stExtracting1 : Bool
  fetchLoopOk : Bool
  stExtracting2 : Bool
  seededCompetitorsOk : Bool
  settings2Ok : Bool
  ensureDefsOk : Bool
  entitiesTxnOk : Bool
  stSynthesizing1 : Bool
  synthReadsOk : Bool
  findingsTxnOk : Bool
  stSynthesizing2 : Bool
  reportReadsOk : Bool
  reportCreateOk : Bool
  stQa1 : Bool
  prevRunLookupOk : Bool
  stQa2 : Bool
  guardReadsOk : Bool
  guardState : GuardState
  stalenessDays : Nat
  stComplete : Bool
  stErrorOk : Bool
deriving Repr

/-- Top-level catch handler: persist ERROR when that setStatus itself
succeeds, then rethrow. -/
def errorExit (env : OrchEnv) (trace : List RunStatus) : Bool × List RunStatus :=
  (false, if env.stErrorOk then trace ++ [RunStatus.ERROR] else trace)

/-- The guarded steps of the orchestrator after the SKIPPED check, in source
order: each pair is the success flag of one fallible call site and the
status it persists when it is a setStatus call.  The mapping to the source
is: setStatus DISCOVERING; loadSettings; makeSearch; the source-create
transaction; setStatus EXTRACTING; the fetch loop; setStatus EXTRACTING;
the seeded-competitor read; loadSettings for AI; ensureFeatureDefinitions;
the entity-write transaction; setStatus SYNTHESIZING; the synthesis reads;
the finding-write transaction; setStatus SYNTHESIZING; the report reads;
the report create; setStatus QA; the previous-run lookup; setStatus QA; the
guardrail reads; setStatus COMPLETE. -/
def orchSteps (env : OrchEnv) : List (Bool × Option RunStatus) :=
  [(env.stDiscovering, some RunStatus.DISCOVERING),
   (env.settingsOk, none),
   (env.makeSearchOk, none),
   (env.sourcesTxnOk, none),
   (env.stExtracting1, some RunStatus.EXTRACTING),
   (env.fetchLoopOk, none),
   (env.stExtracting2, some RunStatus.EXTRACTING),
   (env.seededCompetitorsOk, none),
   (env.settings2Ok, none),
   (env.ensureDefsOk, none),
   (env.entitiesTxnOk, none),
   (env.stSynthesizing1, some RunStatus.SYNTHESIZING),
   (env.synthReadsOk, none),
   (env.findingsTxnOk, none),
   (env.stSynthesizing2, some RunStatus.SYNTHESIZING),
   (env.reportReadsOk, none),
   (env.reportCreateOk, none),
   (env.stQa1, some RunStatus.QA),
   (env.prevRunLookupOk, none),
   (env.stQa2, some RunStatus.QA),
   (env.guardReadsOk, none),
   (env.stComplete, some RunStatus.COMPLETE)]

/-- Execution of the guarded steps: a failing step throws to the top-level
handler, a succeeding setStatus appends its status to the trace. -/
def runSteps (env : OrchEnv) : List (Bool × Option RunStatus) → List RunStatus →
    Bool × List RunStatus
  | [], trace => (true, trace)
  | (ok, st) :: rest, trace =>
    if ok then runSteps env rest (trace ++ st.toList) else errorExit env trace

/-- Control-flow embedding of orchestrateRun: run lookup, the run-not-found
throw, the SKIPPED short-circuit checked once at entry, then the guarded
step sequence.  The guardrail issue list is computed from the snapshot and
only logged, so it does not influence the steps. -/
def orchestrateRun (env : OrchEnv) : Bool × List RunStatus :=
  if !env.runLookupOk then errorExit env []
  else if env.runFound = none then errorExit env []
  else if env.runFound = some RunStatus.SKIPPED then (true, [])
  else
    let _issues := (runGuardrails env.guardState env.stalenessDays).2
    runSteps env (orchSteps env) []

/-- Collapse of consecutive duplicates in a status trace. -/
def dedupConsecutive : List RunStatus → List RunStatus
  | [] => []
  | [a] => [a]
  | a :: b :: rest =>
    if a = b then dedupConsecutive (b :: rest) else a :: dedupConsecutive (b :: rest)

theorem runSteps_success (env : OrchEnv) : ∀ (steps : List (Bool × Option RunStatus))
    (trace : List RunStatus), (runSteps env steps trace).1 = true →
    (runSteps env steps trace).2 = trace ++ steps.filterMap (fun p => p.2) := by
  intro steps
  induction steps with
  | nil => intro trace _; simp [runSteps]
  | cons p rest ih =>
    intro trace h
    obtain ⟨ok, st⟩ := p
    simp only [runSteps] at h ⊢
    by_cases hok : ok = true
    · rw [if_pos hok] at h ⊢
      rw [ih _ h]
      cases st <;> simp
    · rw [if_neg hok] at h
      simp [errorExit] at h

/-- Any run of the orchestrator that returns normally and was not SKIPPED
at entry persists exactly the trace DISCOVERING, EXTRACTING, EXTRACTING,
SYNTHESIZING, SYNTHESIZING, QA, QA, COMPLETE. -/
theorem orchestrateRun_success_trace (env : OrchEnv)
    (hok : (orchestrateRun env).1 = true)
    (hns : env.runFound ≠ some RunStatus.SKIPPED) :
    (orchestrateRun env).2 =
      [.DISCOVERING, .EXTRACTING, .EXTRACTING, .SYNTHESIZING, .SYNTHESIZING,
        .QA, .QA, .COMPLETE] := by
  unfold orchestrateRun at hok ⊢
  split_ifs at hok ⊢ <;>
    first
      | (simp [errorExit] at hok)
      | (exact absurd (by assumption) hns)
      | (exact runSteps_success env (orchSteps env) [] hok)

def emptyGuardState : GuardState where
  sources := []
  findings := []
  capabilities := []
  competitors := []

/-- An environment in which every collaborator call succeeds, parameterised
by the looked-up run status and the guardrail snapshot. -/
def allOkEnv (found : Option RunStatus) (gs : GuardState) : OrchEnv where
  runLookupOk := true
  runFound := found
  stDiscovering := true
  settingsOk := true
  makeSearchOk := true
  sourcesTxnOk := true
  stExtracting1 := true
  fetchLoopOk := true
  stExtracting2 := true
  seededCompetitorsOk := true
  settings2Ok := true
  ensureDefsOk := true
  entitiesTxnOk := true
  stSynthesizing1 := true
  synthReadsOk := true
  findingsTxnOk := true
  stSynthesizing2 := true
  reportReadsOk := true
  reportCreateOk := true
  stQa1 := true
  prevRunLookupOk := true
  stQa2 := true
  guardReadsOk := true
  guardState := gs
  stalenessDays := 180
  stComplete := true
  stErrorOk := true

/-- C1 counterexample: a run whose stored status is SKIPPED completes
without an uncaught exception yet persists no status at all, so the
persisted sequence does not follow the claimed chain from DISCOVERING to
COMPLETE. -/
theorem C1_counterexample_skipped_run_empty_trace :
    (orchestrateRun (allOkEnv (some RunStatus.SKIPPED) emptyGuardState)).1 = true ∧
    (orchestrateRun (allOkEnv (some RunStatus.SKIPPED) emptyGuardState)).2 = [] :=
  ⟨rfl, rfl⟩

/-- C1 amended: for every run of the orchestrator that completes without an
uncaught exception and is not short-circuited by a SKIPPED status at entry,
the persisted status sequence is exactly DISCOVERING, EXTRACTING twice,
SYNTHESIZING twice, QA twice, COMPLETE; collapsing the consecutive repeats,
it strictly follows DISCOVERING to EXTRACTING to SYNTHESIZING to QA to
COMPLETE with no status omitted and none persisted out of this order. -/
theorem C1_amended_status_sequence (env : OrchEnv)
    (hok : (orchestrateRun env).1 = true)
    (hns : env.runFound ≠ some RunStatus.SKIPPED) :
    (orchestrateRun env).2 =
      [.DISCOVERING, .EXTRACTING, .EXTRACTING, .SYNTHESIZING, .SYNTHESIZING,
        .QA, .QA, .COMPLETE] ∧
    dedupConsecutive (orchestrateRun env).2 =
      [.DISCOVERING, .EXTRACTING, .SYNTHESIZING, .QA, .COMPLETE] := by
  have h := orchestrateRun_success_trace env hok hns
  refine ⟨h, ?_⟩
  rw [h]
  rfl

/-- C1 witness: an all-success environment for a non-SKIPPED run, at which
the amended theorem yields the literal trace. -/
theorem C1_amended_status_sequence_witness :
    (orchestrateRun (allOkEnv (some RunStatus.NEW) emptyGuardState)).2 =
      [.DISCOVERING, .EXTRACTING, .EXTRACTING, .SYNTHESIZING, .SYNTHESIZING,
        .QA, .QA, .COMPLETE] :=
  (C1_amended_status_sequence (allOkEnv (some RunStatus.NEW) emptyGuardState)
    rfl (by simp [allOkEnv])).1

/-- C8: runGuardrails is a total function of the snapshot it reads, so it
raises only if a persistence read does; for any run state with exactly three
sources its issue list contains a Low source count entry; and guardrail
issues never change the run status or prevent COMPLETE: the same run, with
any guardrail snapshot whatsoever, still persists COMPLETE whenever it
completes normally. -/
theorem C8_guardrails_low_source_and_nonfatal (env : OrchEnv)
    (h3 : env.guardState.sources.length = 3)
    (hok : (orchestrateRun env).1 = true)
    (hns : env.runFound ≠ some RunStatus.SKIPPED) :
    ((runGuardrails env.guardState env.stalenessDays).2.any
      (fun s => strIsPrefixOf "Low source count" s) = true) ∧
    RunStatus.COMPLETE ∈ (orchestrateRun env).2 := by
  constructor
  · unfold runGuardrails
    dsimp only
    rw [h3]
    apply List.any_eq_true.mpr
    have hc2 : ("Low source count: Only " ++ toString 3 ++
        " sources found. Consider expanding search queries.") ∈
        (if 3 < 5 then ["Low source count: Only " ++ toString 3 ++
          " sources found. Consider expanding search queries."] else []) := by
      rw [if_pos (by norm_num)]
      exact List.mem_singleton_self _
    refine ⟨"Low source count: Only " ++ toString 3 ++
      " sources found. Consider expanding search queries.", ?_, by decide⟩
    simp only [List.mem_append]
    exact Or.inl (Or.inl (Or.inl (Or.inl (Or.inr hc2))))
  · have h := orchestrateRun_success_trace env hok hns
    rw [h]
    simp

def threeSourceGuardState : GuardState where
  sources := [{ id := "s1", status := "OK", notes := none },
    { id := "s2", status := "OK", notes := none },
    { id := "s3", status := "OK", notes := none }]
  findings := []
  capabilities := []
  competitors := []

/-- C8 witness: a run whose guardrail snapshot has exactly three sources
reports the low-source-count issue and still reaches COMPLETE. -/
theorem C8_guardrails_low_source_and_nonfatal_witness :
    ((runGuardrails threeSourceGuardState 180).2.any
      (fun s => strIsPrefixOf "Low source count" s) = true) ∧
    RunStatus.COMPLETE ∈
      (orchestrateRun (allOkEnv (some RunStatus.NEW) threeSourceGuardState)).2 :=
  C8_guardrails_low_source_and_nonfatal
    (allOkEnv (some RunStatus.NEW) threeSourceGuardState)
    (by decide) rfl (by simp [allOkEnv])

/-! Task scheduler AUTO_RERUN handler (src/unnamed/part_004,
TaskScheduler.handleAutoRerun).  The credits library and the run table are
collaborators: getCreditUsage, the latest-run lookup and the clock are
environment inputs, and the handler result records whether a run was
created, how many credits consume was called with, and the status the newly
created run ends up with after the fire-and-forget orchestration settles
(none when the orchestration succeeds and the run stays under the
orchestrator's control). -/

structure CreditUsage where
  used : Nat
  limit : Nat
deriving DecidableEq, Repr

structure AutoRerunTask where
  projectId : Option String
  userId : Option String
deriving DecidableEq, Repr

structure LatestRun where
  id : String
  createdAt : Nat
deriving DecidableEq, Repr

structure AutoRerunEnv where
  creditUsage : CreditUsage
  latestRun : Option LatestRun
  now : Nat
  orchestrationFails : Bool
deriving DecidableEq, Repr

structure AutoRerunResult where
  createdRun : Bool
  creditsConsumed : Nat
  newRunStatus : Option String
deriving DecidableEq, Repr

/-- Embedding of handleAutoRerun: missing ids, an exhausted credit budget,
no previous run, or a last run younger than seven days each return without
creating anything; otherwise a PENDING run is created, one credit is
consumed, and a failing asynchronous orchestration updates the new run to
ERROR.  The source comparison daysSinceLastRun less than 7 on the float
quotient by 86400000 is equivalent to the integer comparison used here. -/
def handleAutoRerun (task : AutoRerunTask) (env : AutoRerunEnv) : AutoRerunResult :=
  match task.projectId, task.userId with
  | some _, some _ =>
    if env.creditUsage.limit ≤ env.creditUsage.used then
      { createdRun := false, creditsConsumed := 0, newRunStatus := none }
    else
      match env.latestRun with
      | none => { createdRun := false, creditsConsumed := 0, newRunStatus := none }
      | some latest =>
        if env.now - latest.createdAt < 7 * 86400000 then
          { createdRun := false, creditsConsumed := 0, newRunStatus := none }
        else
          { createdRun := true, creditsConsumed := 1,
            newRunStatus := if env.orchestrationFails then some "ERROR" else none }
  | _, _ => { createdRun := false, creditsConsumed := 0, newRunStatus := none }

/-- C9: the AUTO_RERUN handler creates a run only when the credit usage is
below the limit and the most recent run is at least seven days old; when
either precondition fails, no run is created and no credit is consumed; and
when the asynchronously started orchestration fails, the newly created run
is set to ERROR. -/
theorem C9_auto_rerun_preconditions (task : AutoRerunTask) (env : AutoRerunEnv) :
    ((handleAutoRerun task env).createdRun = true →
      env.creditUsage.used < env.creditUsage.limit ∧
      ∃ latest, env.latestRun = some latest ∧
        7 * 86400000 ≤ env.now - latest.createdAt) ∧
    ((env.creditUsage.limit ≤ env.creditUsage.used ∨
      (∀ latest, env.latestRun = some latest →
        env.now - latest.createdAt < 7 * 86400000)) →
      (handleAutoRerun task env).createdRun = false ∧
      (handleAutoRerun task env).creditsConsumed = 0) ∧
    ((handleAutoRerun task env).createdRun = true → env.orchestrationFails = true →
      (handleAutoRerun task env).newRunStatus = some "ERROR") := by
  rcases task with ⟨pid, uid⟩
  rcases pid with _ | p <;> rcases uid with _ | u <;> simp only [handleAutoRerun]
  · simp
  · simp
  · simp
  · by_cases hcred : env.creditUsage.limit ≤ env.creditUsage.used
    · rw [if_pos hcred]
      simp
    · rw [if_neg hcred]
      cases hlr : env.latestRun with
      | none => simp
      | some latest =>
        dsimp only
        by_cases hdays : env.now - latest.createdAt < 7 * 86400000
        · rw [if_pos hdays]
          refine ⟨fun h => by simp at h, fun _ => ⟨rfl, rfl⟩, fun h => by simp at h⟩
        · rw [if_neg hdays]
          refine ⟨fun _ => ⟨by omega, latest, rfl, by omega⟩, ?_, fun _ hf => by simp [hf]⟩
          intro hpre
          rcases hpre with hpre | hpre
          · exact absurd hpre hcred
          · exact absurd (hpre latest rfl) hdays

/-- C9 witness: with credits exhausted the handler creates nothing and
consumes nothing; with credits available and an eight-day-old last run it
creates the run, and a failing orchestration leaves it in ERROR. -/
theorem C9_auto_rerun_preconditions_witness :
    ((handleAutoRerun { projectId := some "p1", userId := some "u1" }
      { creditUsage := { used := 5, limit := 5 },
        latestRun := some { id := "r0", createdAt := 0 },
        now := 8 * 86400000, orchestrationFails := false }).createdRun = false ∧
     (handleAutoRerun { projectId := some "p1", userId := some "u1" }
      { creditUsage := { used := 5, limit := 5 },
        latestRun := some { id := "r0", createdAt := 0 },
        now := 8 * 86400000, orchestrationFails := false }).creditsConsumed = 0) ∧
    (handleAutoRerun { projectId := some "p1", userId := some "u1" }
      { creditUsage := { used := 0, limit := 5 },
        latestRun := some { id := "r0", createdAt := 0 },
        now := 8 * 86400000, orchestrationFails := true }).newRunStatus = some "ERROR" := by
  constructor
  · exact (C9_auto_rerun_preconditions
      { projectId := some "p1", userId := some "u1" }
      { creditUsage := { used := 5, limit := 5 },
        latestRun := some { id := "r0", createdAt := 0 },
        now := 8 * 86400000, orchestrationFails := false }).2.1 (Or.inl (by decide))
  · exact (C9_auto_rerun_preconditions
      { projectId := some "p1", userId := some "u1" }
      { creditUsage := { used := 0, limit := 5 },
        latestRun := some { id := "r0", createdAt := 0 },
        now := 8 * 86400000, orchestrationFails := true }).2.2 (by decide) rfl

/-! Feature-opportunity INSIGHT synthesis (src/app/api/runs/orchestrator.ts,
lines 562 through 574 and 658 through 758).  A FeatRow models one Feature
row joined with its feature definition, competitor and run, as the two
prisma.feature.findMany calls return them; the historical query is modelled
by selectHistoricalFeatures over the full historical feature table given in
createdAt-descending-stable order by insertion sort. -/

structure FeatRow where
  name : String
  normalized : Option String
  defName : Option String
  defNormalized : Option String
  featureDefinitionId : Option String
  competitorName : Option String
  sourceId : Option String
  runId : String
  runIndustry : Option String
  createdAt : Nat
deriving DecidableEq, Repr

/-- The historical-feature query of the orchestrator: rows that carry a
feature definition, belong to another run, match the project industry when
one is set, ordered by createdAt descending and limited to the 300 most
recent rows. -/
def selectHistoricalFeatures (table : List FeatRow) (runId : String)
    (industry : Option String) : List FeatRow :=
  (((table.filter (fun f => f.featureDefinitionId.isSome &&
        !(f.runId == runId) &&
        (match industry with
          | some ind => f.runIndustry == some ind
          | none => true))).insertionSort
      (fun a b => b.createdAt ≤ a.createdAt)).take 300)

/-- Modelled from the spec: the claimed selection reads features from the
300 most recent historical runs, rather than the 300 most recent feature
rows; the missing part is the spec reading of the take-300 limit, stated
here for comparison with selectHistoricalFeatures. -/
def selectHistoricalBySpecRuns (table : List FeatRow) (runId : String)
    (industry : Option String) : List FeatRow :=
  let sorted := (table.filter (fun f => f.featureDefinitionId.isSome &&
      !(f.runId == runId) &&
      (match industry with
        | some ind => f.runIndustry == some ind
        | none => true))).insertionSort
    (fun a b => b.createdAt ≤ a.createdAt)
  let recentRuns := (jsSetOfList (sorted.map (fun f => f.runId))).take 300
  sorted.filter (fun f => f.runId ∈ recentRuns)

/-- The first argument the orchestrator passes to recordFeatureEvidence:
the definition's normalized key, else the row's normalized name, else its
raw name. -/
def evidenceNormalizedArg (f : FeatRow) : String :=
  f.defNormalized.getD (f.normalized.getD f.name)

/-- The second argument: the definition's display name, else the row's raw
name. -/
def evidenceNameArg (f : FeatRow) : String :=
  f.defName.getD f.name

structure SuggestionEntry where
  name : String
  normalized : String
  competitors : List String
  citations : List String
  currentCount : Nat
  historicalCount : Nat
deriving DecidableEq, Repr

def jsSetAddStr (l : List String) (s : String) : List String :=
  if s ∈ l then l else l ++ [s]

/-- The suggestion entry read from the map, or the fresh entry created for
the key. -/
def suggestionBase (m : List (String × SuggestionEntry)) (norm display : String) :
    SuggestionEntry :=
  (alistGet norm m).getD
    { name := display, normalized := norm, competitors := [], citations := [],
      currentCount := 0, historicalCount := 0 }

/-- Addition of a truthy competitor name to the competitor set. -/
def suggestionWithCompetitor (e : SuggestionEntry) (competitorName : Option String) :
    SuggestionEntry :=
  match competitorName with
  | some cn => if cn = "" then e else
      { e with competitors := jsSetAddStr e.competitors cn }
  | none => e

/-- The bucket update: the current bucket bumps currentCount and adds a
truthy source id to the citation set; the historical bucket bumps
historicalCount. -/
def suggestionWithBucket (e : SuggestionEntry) (sourceId : Option String)
    (isCurrent : Bool) : SuggestionEntry :=
  if isCurrent then
    { e with
      currentCount := e.currentCount + 1,
      citations := (match sourceId with
        | some sid => if sid = "" then e.citations else jsSetAddStr e.citations sid
        | none => e.citations) }
  else { e with historicalCount := e.historicalCount + 1 }

/-- Embedding of recordFeatureEvidence: skip rows whose key normalises to
nothing, then create or update the suggestion entry for the key, adding a
non-empty competitor name to the competitor set, counting the bucket, and
for the current bucket adding a non-empty source id to the citation set. -/
def recordFeatureEvidence (m : List (String × SuggestionEntry))
    (normalized name : String) (competitorName : Option String)
    (sourceId : Option String) (isCurrent : Bool) :
    List (String × SuggestionEntry) :=
  if normalized = "" ∧ name = "" then m
  else
    let norm := normalizeFeature normalized
    if norm = "" then m
    else
      alistSet norm
        (suggestionWithBucket
          (suggestionWithCompetitor (suggestionBase m norm (canonicalFeatureName name))
            competitorName)
          sourceId isCurrent) m

/-- One evidence step for a row tagged with its bucket; historical rows pass
a null source id, as in the source. -/
def evidenceStep (m : List (String × SuggestionEntry)) (rb : FeatRow × Bool) :
    List (String × SuggestionEntry) :=
  recordFeatureEvidence m (evidenceNormalizedArg rb.1) (evidenceNameArg rb.1)
    rb.1.competitorName (if rb.2 then rb.1.sourceId else none) rb.2

def processEvidence (m : List (String × SuggestionEntry))
    (rows : List (FeatRow × Bool)) : List (String × SuggestionEntry) :=
  rows.foldl evidenceStep m

/-- The featureSuggestionMap of the orchestrator: all current rows recorded
into the current bucket, then all selected historical rows into the
historical bucket. -/
def buildSuggestionMap (current historical : List FeatRow) :
    List (String × SuggestionEntry) :=
  processEvidence [] (current.map (fun f => (f, true)) ++
    historical.map (fun f => (f, false)))

/-- The non-declared suggestion entries, in map insertion order. -/
def suggestionCandidates (current historical : List FeatRow)
    (declared : List String) : List SuggestionEntry :=
  ((buildSuggestionMap current historical).map (fun p => p.2)).filter
    (fun e => !(declared.contains e.normalized))

/-- The featureSuggestions list: map values, non-declared keys only, sorted
stably by combined count descending, first five. -/
def featureSuggestions (current historical : List FeatRow)
    (declared : List String) : List SuggestionEntry :=
  ((suggestionCandidates current historical declared).insertionSort
    (fun a b => b.currentCount + b.historicalCount ≤
      a.currentCount + a.historicalCount)).take 5

def joinSep (sep : String) : List String → String
  | [] => ""
  | x :: rest => rest.foldl (fun acc s => acc ++ sep ++ s) x

/-- The INSIGHT built from one suggestion: none when both buckets are empty
(unreachable for recorded entries), confidence 70 hundredths when the
feature was seen in the current run and 55 otherwise, citing up to three
current-run sources. -/
def opportunityInsightOf (s : SuggestionEntry) : Option Finding :=
  let mm1 : List String := if 0 < s.currentCount then
    [toString s.currentCount ++ " competitor" ++
      (if 1 < s.currentCount then "s" else "") ++ " in this run"] else []
  let mm2 : List String := if 0 < s.historicalCount then
    [toString s.historicalCount ++ " sightings in prior analyses"] else []
  let marketMentions := mm1 ++ mm2
  if marketMentions.isEmpty then none
  else
    let competitorExamples := s.competitors.take 3
    let exampleText := if competitorExamples.isEmpty then "" else
      " (e.g., " ++ joinSep ", " competitorExamples ++ ")"
    some
      { kind := .INSIGHT,
        text := "Opportunity: \"" ++ s.name ++ "\" appears across " ++
          joinSep " and " marketMentions ++ exampleText ++
          ". Consider adding or strengthening this capability to keep pace with the market.",
        confidence := (if 0 < s.currentCount then 70 else 55),
        citations := s.citations.take 3 }

/-- The feature-opportunity INSIGHT findings of one run. -/
def featureOpportunityInsights (current historical : List FeatRow)
    (declared : List String) : List Finding :=
  (featureSuggestions current historical declared).filterMap opportunityInsightOf

/-! Association list lemmas and the evidence-fold invariant. -/

/-- A row contributes evidence exactly when its key normalises to a
non-empty string; the early returns of recordFeatureEvidence fire otherwise
and only otherwise. -/
def contributes (f : FeatRow) : Bool := !(normalizeFeature (evidenceNormalizedArg f) == "")

def rowKey (f : FeatRow) : String := normalizeFeature (evidenceNormalizedArg f)

/-- Number of processed evidence rows of one bucket contributing to one
key. -/
def bucketCount (k : String) (isCur : Bool) (done : List (FeatRow × Bool)) : Nat :=
  (done.filter (fun rb => rb.2 == isCur && contributes rb.1 && (rowKey rb.1 == k))).length

theorem alistGet_set_self {β : Type} (k : String) (v : β) (m : List (String × β)) :
    alistGet k (alistSet k v m) = some v := by
  induction m with
  | nil => simp [alistSet, alistGet]
  | cons p rest ih =>
    obtain ⟨k2, v2⟩ := p
    by_cases h : k2 = k
    · simp [alistSet, alistGet, h]
    · simp only [alistSet, alistGet, if_neg h]
      exact ih

theorem alistGet_set_ne {β : Type} {k k' : String} (hne : k' ≠ k) (v : β)
    (m : List (String × β)) : alistGet k' (alistSet k v m) = alistGet k' m := by
  induction m with
  | nil =>
    simp only [alistSet, alistGet]
    rw [if_neg (fun h => hne h.symm)]
  | cons p rest ih =>
    obtain ⟨k2, v2⟩ := p
    by_cases h : k2 = k
    · subst h
      simp only [alistSet, if_pos rfl, alistGet]
      rw [if_neg (fun h2 => hne h2.symm), if_neg (fun h2 => hne h2.symm)]
    · simp only [alistSet, if_neg h, alistGet]
      by_cases h2 : k2 = k'
      · rw [if_pos h2, if_pos h2]
      · rw [if_neg h2, if_neg h2]
        exact ih

theorem alistSet_keys_of_absent {β : Type} {k : String} {m : List (String × β)}
    (habs : alistGet k m = none) (v : β) :
    (alistSet k v m).map (fun p => p.1) = m.map (fun p => p.1) ++ [k] := by
  induction m with
  | nil => simp [alistSet]
  | cons p rest ih =>
    obtain ⟨k2, v2⟩ := p
    simp only [alistGet] at habs
    by_cases h : k2 = k
    · rw [if_pos h] at habs
      exact absurd habs (by simp)
    · rw [if_neg h] at habs
      simp only [alistSet, if_neg h, List.map_cons]
      rw [ih habs]
      rfl

theorem alistSet_keys_of_present {β : Type} {k : String} {m : List (String × β)} {w : β}
    (hp : alistGet k m = some w) (v : β) :
    (alistSet k v m).map (fun p => p.1) = m.map (fun p => p.1) := by
  induction m with
  | nil => simp [alistGet] at hp
  | cons p rest ih =>
    obtain ⟨k2, v2⟩ := p
    simp only [alistGet] at hp
    by_cases h : k2 = k
    · simp [alistSet, h]
    · rw [if_neg h] at hp
      simp only [alistSet, if_neg h, List.map_cons]
      rw [ih hp]

theorem alistGet_none_of_notin {β : Type} {k : String} {m : List (String × β)}
    (h : k ∉ m.map (fun p => p.1)) : alistGet k m = none := by
  induction m with
  | nil => rfl
  | cons p rest ih =>
    obtain ⟨k2, v2⟩ := p
    simp only [List.map_cons, List.mem_cons] at h
    push_neg at h
    simp only [alistGet]
    rw [if_neg (fun he => h.1 he.symm)]
    exact ih h.2

theorem alistGet_mem {β : Type} {k : String} {m : List (String × β)} {v : β}
    (h : alistGet k m = some v) : (k, v) ∈ m := by
  induction m with
  | nil => simp [alistGet] at h
  | cons p rest ih =>
    obtain ⟨k2, v2⟩ := p
    simp only [alistGet] at h
    by_cases he : k2 = k
    · rw [if_pos he] at h
      cases h
      subst he
      exact List.mem_cons_self _ _
    · rw [if_neg he] at h
      exact List.mem_cons_of_mem _ (ih h)

theorem alistGet_of_mem_nodup {β : Type} {m : List (String × β)}
    (hnd : (m.map (fun p => p.1)).Nodup) {k : String} {v : β}
    (hm : (k, v) ∈ m) : alistGet k m = some v := by
  induction m with
  | nil => simp at hm
  | cons p rest ih =>
    obtain ⟨k2, v2⟩ := p
    simp only [List.map_cons, List.nodup_cons] at hnd
    rcases List.mem_cons.mp hm with h | h
    · cases h
      simp [alistGet]
    · simp only [alistGet]
      have hk2 : k2 ≠ k := by
        intro he
        subst he
        exact hnd.1 (List.mem_map.mpr ⟨(k2, v), h, rfl⟩)
      rw [if_neg hk2]
      exact ih hnd.2 h

theorem bucketCount_append_one (k : String) (isCur : Bool)
    (done : List (FeatRow × Bool)) (rb : FeatRow × Bool) :
    bucketCount k isCur (done ++ [rb]) = bucketCount k isCur done +
      (if rb.2 == isCur && contributes rb.1 && (rowKey rb.1 == k) then 1 else 0) := by
  unfold bucketCount
  rw [List.filter_append, List.length_append]
  congr 1
  by_cases h : (rb.2 == isCur && contributes rb.1 && (rowKey rb.1 == k)) = true
  · rw [if_pos h]
    simp [h]
  · rw [if_neg h]
    simp only [Bool.not_eq_true] at h
    simp [h]

theorem recordFeatureEvidence_eq (m : List (String × SuggestionEntry))
    (normalized name : String) (cn sid : Option String) (b : Bool) :
    recordFeatureEvidence m normalized name cn sid b =
    if normalizeFeature normalized = "" then m
    else alistSet (normalizeFeature normalized)
      (suggestionWithBucket
        (suggestionWithCompetitor
          (suggestionBase m (normalizeFeature normalized) (canonicalFeatureName name)) cn)
        sid b) m := by
  unfold recordFeatureEvidence
  by_cases h1 : normalized = "" ∧ name = ""
  · rw [if_pos h1]
    have hnf : normalizeFeature normalized = "" := by rw [h1.1]; decide
    rw [if_pos hnf]
  · rw [if_neg h1]

theorem suggestionWithCompetitor_fields (e : SuggestionEntry) (cn : Option String) :
    (suggestionWithCompetitor e cn).normalized = e.normalized ∧
    (suggestionWithCompetitor e cn).currentCount = e.currentCount ∧
    (suggestionWithCompetitor e cn).historicalCount = e.historicalCount ∧
    (suggestionWithCompetitor e cn).citations = e.citations := by
  cases cn with
  | none => exact ⟨rfl, rfl, rfl, rfl⟩
  | some c =>
    by_cases h : c = ""
    · simp [suggestionWithCompetitor, h]
    · simp [suggestionWithCompetitor, h]

theorem suggestionWithBucket_normalized (e : SuggestionEntry) (sid : Option String)
    (b : Bool) : (suggestionWithBucket e sid b).normalized = e.normalized := by
  unfold suggestionWithBucket
  cases b <;> rfl

theorem suggestionWithBucket_currentCount (e : SuggestionEntry) (sid : Option String)
    (b : Bool) : (suggestionWithBucket e sid b).currentCount =
      e.currentCount + (if b then 1 else 0) := by
  unfold suggestionWithBucket
  cases b <;> rfl

theorem suggestionWithBucket_historicalCount (e : SuggestionEntry) (sid : Option String)
    (b : Bool) : (suggestionWithBucket e sid b).historicalCount =
      e.historicalCount + (if b then 0 else 1) := by
  unfold suggestionWithBucket
  cases b <;> rfl

theorem mem_jsSetAddStr {l : List String} {s c : String}
    (h : c ∈ jsSetAddStr l s) : c ∈ l ∨ c = s := by
  unfold jsSetAddStr at h
  split_ifs at h with h1
  · exact Or.inl h
  · rcases List.mem_append.mp h with h2 | h2
    · exact Or.inl h2
    · exact Or.inr (List.mem_singleton.mp h2)

theorem suggestionWithBucket_citations {e : SuggestionEntry} {sid : Option String}
    {b : Bool} {c : String} (h : c ∈ (suggestionWithBucket e sid b).citations) :
    c ∈ e.citations ∨ (b = true ∧ sid = some c) := by
  cases b with
  | false => exact Or.inl h
  | true =>
    cases sid with
    | none => exact Or.inl h
    | some s =>
      by_cases he : s = ""
      · refine Or.inl ?_
        have hcit : (suggestionWithBucket e (some s) true).citations = e.citations := by
          simp [suggestionWithBucket, he]
        rwa [hcit] at h
      · have hcit : (suggestionWithBucket e (some s) true).citations =
            jsSetAddStr e.citations s := by
          simp [suggestionWithBucket, he]
        rw [hcit] at h
        rcases mem_jsSetAddStr h with h2 | h2
        · exact Or.inl h2
        · exact Or.inr ⟨rfl, by rw [h2]⟩

/-- Invariant of the evidence fold: keys are distinct, every stored entry
records its own key, its bucket counts equal the numbers of contributing
processed rows of each bucket, its citations come from processed current
rows, at least one processed row contributed to it, and absent keys have no
contributing processed rows. -/
def MapInv (m : List (String × SuggestionEntry)) (done : List (FeatRow × Bool)) : Prop :=
  ((m.map (fun p => p.1)).Nodup) ∧
  (∀ k e, alistGet k m = some e →
    e.normalized = k ∧
    e.currentCount = bucketCount k true done ∧
    e.historicalCount = bucketCount k false done ∧
    (∀ c ∈ e.citations, ∃ fr, (fr, true) ∈ done ∧ fr.sourceId = some c) ∧
    0 < bucketCount k true done + bucketCount k false done) ∧
  (∀ k, alistGet k m = none →
    bucketCount k true done = 0 ∧ bucketCount k false done = 0)

theorem evidenceStep_inv {m : List (String × SuggestionEntry)}
    {done : List (FeatRow × Bool)} (h : MapInv m done) (rb : FeatRow × Bool) :
    MapInv (evidenceStep m rb) (done ++ [rb]) := by
  obtain ⟨hnd, hsome, hnone⟩ := h
  unfold evidenceStep
  rw [recordFeatureEvidence_eq]
  by_cases hc : normalizeFeature (evidenceNormalizedArg rb.1) = ""
  · rw [if_pos hc]
    have hnc : contributes rb.1 = false := by simp [contributes, hc]
    have hbc : ∀ k isCur, bucketCount k isCur (done ++ [rb]) = bucketCount k isCur done := by
      intro k isCur
      rw [bucketCount_append_one]
      simp [hnc]
    refine ⟨hnd, ?_, ?_⟩
    · intro k e hget
      obtain ⟨h1, h2, h3, h4, h5⟩ := hsome k e hget
      refine ⟨h1, by rw [hbc]; exact h2, by rw [hbc]; exact h3, ?_, by rw [hbc, hbc]; exact h5⟩
      intro c hcmem
      obtain ⟨fr, hfr1, hfr2⟩ := h4 c hcmem
      exact ⟨fr, List.mem_append_left _ hfr1, hfr2⟩
    · intro k hget
      rw [hbc, hbc]
      exact hnone k hget
  · rw [if_neg hc]
    have hkeyrb : rowKey rb.1 = normalizeFeature (evidenceNormalizedArg rb.1) := rfl
    have hcontrib : contributes rb.1 = true := by simp [contributes, hc]
    set norm := normalizeFeature (evidenceNormalizedArg rb.1) with hnormdef
    set E := suggestionWithBucket
      (suggestionWithCompetitor (suggestionBase m norm
        (canonicalFeatureName (evidenceNameArg rb.1))) rb.1.competitorName)
      (if rb.2 then rb.1.sourceId else none) rb.2 with hEdef
    have hbc_ne : ∀ k isCur, k ≠ norm →
        bucketCount k isCur (done ++ [rb]) = bucketCount k isCur done := by
      intro k isCur hkne
      rw [bucketCount_append_one]
      have : (rowKey rb.1 == k) = false := by
        rw [hkeyrb]
        exact beq_eq_false_iff_ne.mpr (fun he => hkne he.symm)
      simp [this]
    have hbc_eq : ∀ isCur, bucketCount norm isCur (done ++ [rb]) =
        bucketCount norm isCur done + (if rb.2 == isCur then 1 else 0) := by
      intro isCur
      rw [bucketCount_append_one]
      have h1 : (rowKey rb.1 == norm) = true := by
        rw [hkeyrb]
        exact beq_self_eq_true norm
      rw [hcontrib, h1]
      by_cases h2 : rb.2 == isCur
      · simp [h2]
      · simp only [Bool.not_eq_true] at h2
        simp [h2]
    -- the base entry has the invariant counts for norm
    have hbase : (suggestionBase m norm (canonicalFeatureName (evidenceNameArg rb.1))).normalized = norm ∧
        (suggestionBase m norm (canonicalFeatureName (evidenceNameArg rb.1))).currentCount =
          bucketCount norm true done ∧
        (suggestionBase m norm (canonicalFeatureName (evidenceNameArg rb.1))).historicalCount =
          bucketCount norm false done ∧
        (∀ c ∈ (suggestionBase m norm (canonicalFeatureName (evidenceNameArg rb.1))).citations,
          ∃ fr, (fr, true) ∈ done ∧ fr.sourceId = some c) := by
      unfold suggestionBase
      cases hget : alistGet norm m with
      | some e0 =>
        obtain ⟨h1, h2, h3, h4, _⟩ := hsome norm e0 hget
        exact ⟨h1, h2, h3, h4⟩
      | none =>
        obtain ⟨h1, h2⟩ := hnone norm hget
        exact ⟨rfl, by rw [h1]; rfl, by rw [h2]; rfl, fun c hcm => absurd hcm (by simp)⟩
    obtain ⟨hbn, hbcur, hbhist, hbcit⟩ := hbase
    obtain ⟨hwn, hwcur, hwhist, hwcit⟩ :=
      suggestionWithCompetitor_fields (suggestionBase m norm
        (canonicalFeatureName (evidenceNameArg rb.1))) rb.1.competitorName
    refine ⟨?_, ?_, ?_⟩
    · -- keys stay distinct
      cases hget : alistGet norm m with
      | some e0 => rw [alistSet_keys_of_present hget]; exact hnd
      | none =>
        rw [alistSet_keys_of_absent hget]
        refine List.Nodup.append hnd (List.nodup_singleton _) ?_
        intro k hk1 hk2
        rw [List.mem_singleton] at hk2
        subst hk2
        rcases List.mem_map.mp hk1 with ⟨p, hp, hpk⟩
        have hmem2 : (norm, p.2) ∈ m := by rw [← hpk]; exact hp
        have hgot := alistGet_of_mem_nodup hnd hmem2
        rw [hget] at hgot
        exact absurd hgot (by simp)
    · intro k e hget
      by_cases hk : k = norm
      · subst hk
        rw [alistGet_set_self] at hget
        cases hget
        refine ⟨?_, ?_, ?_, ?_, ?_⟩
        · rw [hEdef, suggestionWithBucket_normalized, hwn, hbn]
        · rw [hEdef, suggestionWithBucket_currentCount, hwcur, hbcur, hbc_eq true]
          cases hrb2 : rb.2 <;> simp
        · rw [hEdef, suggestionWithBucket_historicalCount, hwhist, hbhist, hbc_eq false]
          cases hrb2 : rb.2 <;> simp
        · intro c hcmem
          rcases suggestionWithBucket_citations (hEdef ▸ hcmem) with h2 | h2
          · rw [hwcit] at h2
            obtain ⟨fr, hfr1, hfr2⟩ := hbcit c h2
            exact ⟨fr, List.mem_append_left _ hfr1, hfr2⟩
          · obtain ⟨hb2, hsid⟩ := h2
            rw [hb2] at hsid
            refine ⟨rb.1, ?_, by simpa using hsid⟩
            refine List.mem_append_right _ ?_
            have : rb = (rb.1, true) := by
              rw [← hb2]
            rw [← this]
            exact List.mem_singleton_self rb
        · rw [hbc_eq true, hbc_eq false]
          cases hrb2 : rb.2 <;> simp
      · rw [alistGet_set_ne hk _ m] at hget
        obtain ⟨h1, h2, h3, h4, h5⟩ := hsome k e hget
        refine ⟨h1, by rw [hbc_ne k true hk]; exact h2, by rw [hbc_ne k false hk]; exact h3,
          ?_, by rw [hbc_ne k true hk, hbc_ne k false hk]; exact h5⟩
        intro c hcmem
        obtain ⟨fr, hfr1, hfr2⟩ := h4 c hcmem
        exact ⟨fr, List.mem_append_left _ hfr1, hfr2⟩
    · intro k hget
      by_cases hk : k = norm
      · subst hk
        rw [alistGet_set_self] at hget
        exact absurd hget (by simp)
      · rw [alistGet_set_ne hk _ m] at hget
        rw [hbc_ne k true hk, hbc_ne k false hk]
        exact hnone k hget

theorem processEvidence_inv : ∀ (rows : List (FeatRow × Bool))
    (m : List (String × SuggestionEntry)) (done : List (FeatRow × Bool)),
    MapInv m done → MapInv (processEvidence m rows) (done ++ rows) := by
  intro rows
  induction rows with
  | nil => intro m done h; simpa [processEvidence] using h
  | cons rb rest ih =>
    intro m done h
    have hstep := evidenceStep_inv h rb
    have := ih (evidenceStep m rb) (done ++ [rb]) hstep
    simpa [processEvidence, List.append_assoc] using this

/-- The invariant at the built map of one run. -/
theorem buildSuggestionMap_inv (current historical : List FeatRow) :
    MapInv (buildSuggestionMap current historical)
      (current.map (fun f => (f, true)) ++ historical.map (fun f => (f, false))) := by
  have hbase : MapInv [] [] := by
    refine ⟨List.nodup_nil, ?_, ?_⟩
    · intro k e hget; simp [alistGet] at hget
    · intro k _; exact ⟨rfl, rfl⟩
  simpa [buildSuggestionMap] using
    processEvidence_inv (current.map (fun f => (f, true)) ++
      historical.map (fun f => (f, false))) [] [] hbase

theorem bucketCount_annotated (k : String) (cur hist : List FeatRow) :
    bucketCount k true (cur.map (fun f => (f, true)) ++ hist.map (fun f => (f, false))) =
      (cur.filter (fun f => contributes f && (rowKey f == k))).length ∧
    bucketCount k false (cur.map (fun f => (f, true)) ++ hist.map (fun f => (f, false))) =
      (hist.filter (fun f => contributes f && (rowKey f == k))).length := by
  constructor
  · unfold bucketCount
    rw [List.filter_append, List.length_append]
    have h2 : (hist.map (fun f => (f, false))).filter
        (fun rb => rb.2 == true && contributes rb.1 && (rowKey rb.1 == k)) = [] := by
      rw [List.filter_eq_nil_iff]
      intro rb hrb
      rcases List.mem_map.mp hrb with ⟨f, _, hf⟩
      subst hf
      simp
    rw [h2]
    simp only [List.length_nil, Nat.add_zero]
    rw [List.filter_map, List.length_map]
    congr 1
  · unfold bucketCount
    rw [List.filter_append, List.length_append]
    have h1 : (cur.map (fun f => (f, true))).filter
        (fun rb => rb.2 == false && contributes rb.1 && (rowKey rb.1 == k)) = [] := by
      rw [List.filter_eq_nil_iff]
      intro rb hrb
      rcases List.mem_map.mp hrb with ⟨f, _, hf⟩
      subst hf
      simp
    rw [h1]
    simp only [List.length_nil, Nat.zero_add]
    rw [List.filter_map, List.length_map]
    congr 1

theorem annotated_true_mem {cur hist : List FeatRow} {fr : FeatRow}
    (h : (fr, true) ∈ cur.map (fun f => (f, true)) ++ hist.map (fun f => (f, false))) :
    fr ∈ cur := by
  rcases List.mem_append.mp h with h | h
  · rcases List.mem_map.mp h with ⟨f, hf, he⟩
    cases he
    exact hf
  · rcases List.mem_map.mp h with ⟨f, _, he⟩
    cases he

/-- The facts every candidate entry satisfies: its counts are the numbers of
contributing rows per bucket for its key, its citations come from current
rows, at least one row contributed to it, and its key is not declared. -/
theorem suggestionCandidates_spec (cur hist : List FeatRow) (declared : List String) :
    ∀ e ∈ suggestionCandidates cur hist declared,
      e.currentCount = (cur.filter (fun f => contributes f && (rowKey f == e.normalized))).length ∧
      e.historicalCount = (hist.filter (fun f => contributes f && (rowKey f == e.normalized))).length ∧
      (∀ c ∈ e.citations, ∃ fr ∈ cur, fr.sourceId = some c) ∧
      0 < e.currentCount + e.historicalCount ∧
      declared.contains e.normalized = false := by
  intro e he
  obtain ⟨hval, hdec⟩ := List.mem_filter.mp he
  rcases List.mem_map.mp hval with ⟨p, hp, hpe⟩
  obtain ⟨hnd, hsome, _⟩ := buildSuggestionMap_inv cur hist
  have hget : alistGet p.1 (buildSuggestionMap cur hist) = some p.2 :=
    alistGet_of_mem_nodup hnd (by rw [show (p.1, p.2) = p from rfl]; exact hp)
  obtain ⟨h1, h2, h3, h4, h5⟩ := hsome p.1 p.2 hget
  obtain ⟨hat, haf⟩ := bucketCount_annotated p.1 cur hist
  subst hpe
  refine ⟨?_, ?_, ?_, ?_, ?_⟩
  · rw [h1, h2, hat]
  · rw [h1, h3, haf]
  · intro c hc
    obtain ⟨fr, hfr1, hfr2⟩ := h4 c hc
    exact ⟨fr, annotated_true_mem hfr1, hfr2⟩
  · rw [h2, h3, hat, haf]
    rw [hat, haf] at h5
    exact h5
  · simpa using hdec

/-- Coverage: the candidate keys are exactly the non-declared keys of
contributing current or selected-historical rows. -/
theorem suggestionCandidates_cover (cur hist : List FeatRow) (declared : List String)
    (k : String) :
    (∃ e ∈ suggestionCandidates cur hist declared, e.normalized = k) ↔
    (declared.contains k = false ∧
      ∃ f ∈ cur ++ hist, contributes f = true ∧ rowKey f = k) := by
  obtain ⟨hnd, hsome, hnone⟩ := buildSuggestionMap_inv cur hist
  obtain ⟨hat, haf⟩ := bucketCount_annotated k cur hist
  constructor
  · rintro ⟨e, he, hek⟩
    obtain ⟨h1, h2, _, h4, h5⟩ := suggestionCandidates_spec cur hist declared e he
    subst hek
    refine ⟨h5, ?_⟩
    have hpos : 0 < (cur.filter (fun f => contributes f && (rowKey f == e.normalized))).length +
        (hist.filter (fun f => contributes f && (rowKey f == e.normalized))).length := by
      rw [← h1, ← h2]
      exact h4
    by_cases hcur : (cur.filter (fun f => contributes f && (rowKey f == e.normalized))).length = 0
    · have hhist : (hist.filter (fun f => contributes f && (rowKey f == e.normalized))) ≠ [] := by
        intro hnil
        rw [hnil] at hpos
        simp at hpos
        omega
      obtain ⟨f, hf⟩ := List.exists_mem_of_ne_nil _ hhist
      obtain ⟨hfmem, hfprop⟩ := List.mem_filter.mp hf
      simp only [Bool.and_eq_true, beq_iff_eq] at hfprop
      exact ⟨f, List.mem_append_right _ hfmem, hfprop.1, hfprop.2⟩
    · have hne : (cur.filter (fun f => contributes f && (rowKey f == e.normalized))) ≠ [] := by
        intro hnil
        rw [hnil] at hcur
        simp at hcur
      obtain ⟨f, hf⟩ := List.exists_mem_of_ne_nil _ hne
      obtain ⟨hfmem, hfprop⟩ := List.mem_filter.mp hf
      simp only [Bool.and_eq_true, beq_iff_eq] at hfprop
      exact ⟨f, List.mem_append_left _ hfmem, hfprop.1, hfprop.2⟩
  · rintro ⟨hdecl, f, hfmem, hcontrib, hkey⟩
    cases hget : alistGet k (buildSuggestionMap cur hist) with
    | none =>
      obtain ⟨h1, h2⟩ := hnone k hget
      rw [hat] at h1
      rw [haf] at h2
      rcases List.mem_append.mp hfmem with hf | hf
      · have hfin : f ∈ cur.filter (fun g => contributes g && (rowKey g == k)) :=
          List.mem_filter.mpr ⟨hf, by simp [hcontrib, hkey]⟩
        have hlen := List.length_pos.mpr (List.ne_nil_of_mem hfin)
        omega
      · have hfin : f ∈ hist.filter (fun g => contributes g && (rowKey g == k)) :=
          List.mem_filter.mpr ⟨hf, by simp [hcontrib, hkey]⟩
        have hlen := List.length_pos.mpr (List.ne_nil_of_mem hfin)
        omega
    | some e =>
      have hmem : (k, e) ∈ buildSuggestionMap cur hist := alistGet_mem hget
      have heval : e ∈ (buildSuggestionMap cur hist).map (fun p => p.2) :=
        List.mem_map.mpr ⟨(k, e), hmem, rfl⟩
      obtain ⟨h1, _, _, _, _⟩ := hsome k e hget
      refine ⟨e, List.mem_filter.mpr ⟨heval, ?_⟩, h1⟩
      rw [h1, hdecl]
      rfl

theorem opportunityInsightOf_fields {s : SuggestionEntry} {f : Finding}
    (h : opportunityInsightOf s = some f) :
    f.confidence = (if 0 < s.currentCount then 70 else 55) ∧
    f.citations = s.citations.take 3 := by
  unfold opportunityInsightOf at h
  dsimp only at h
  split_ifs at h <;> cases h <;> exact ⟨by simp_all, rfl⟩

theorem featureSuggestions_spec (cur hist : List FeatRow) (declared : List String) :
    (featureSuggestions cur hist declared).length ≤ 5 ∧
    (∀ e ∈ featureSuggestions cur hist declared,
      e ∈ suggestionCandidates cur hist declared) ∧
    (∀ e ∈ featureSuggestions cur hist declared,
      ∀ e2 ∈ suggestionCandidates cur hist declared,
        e2 ∈ featureSuggestions cur hist declared ∨
        e2.currentCount + e2.historicalCount ≤ e.currentCount + e.historicalCount) := by
  haveI instTot : IsTotal SuggestionEntry (fun a b =>
      b.currentCount + b.historicalCount ≤ a.currentCount + a.historicalCount) :=
    ⟨fun a b => Nat.le_total _ _⟩
  haveI instTr : IsTrans SuggestionEntry (fun a b =>
      b.currentCount + b.historicalCount ≤ a.currentCount + a.historicalCount) :=
    ⟨fun _ _ _ hab hbc => le_trans hbc hab⟩
  have hsorted := List.sorted_insertionSort
    (fun a b : SuggestionEntry =>
      b.currentCount + b.historicalCount ≤ a.currentCount + a.historicalCount)
    (suggestionCandidates cur hist declared)
  have hperm := List.perm_insertionSort
    (fun a b : SuggestionEntry =>
      b.currentCount + b.historicalCount ≤ a.currentCount + a.historicalCount)
    (suggestionCandidates cur hist declared)
  refine ⟨?_, ?_, ?_⟩
  · exact List.length_take_le 5 _
  · intro e he
    exact hperm.subset (List.take_subset 5 _ he)
  · intro e he e2 he2
    have he2s : e2 ∈ (suggestionCandidates cur hist declared).insertionSort
        (fun a b => b.currentCount + b.historicalCount ≤
          a.currentCount + a.historicalCount) :=
      hperm.symm.subset he2
    have hsplit := List.take_append_drop 5
      ((suggestionCandidates cur hist declared).insertionSort
        (fun a b => b.currentCount + b.historicalCount ≤
          a.currentCount + a.historicalCount))
    have he2s2 : e2 ∈ (List.take 5 ((suggestionCandidates cur hist declared).insertionSort
        (fun a b => b.currentCount + b.historicalCount ≤
          a.currentCount + a.historicalCount))) ++
        (List.drop 5 ((suggestionCandidates cur hist declared).insertionSort
        (fun a b => b.currentCount + b.historicalCount ≤
          a.currentCount + a.historicalCount))) := by
      rw [hsplit]
      exact he2s
    rcases List.mem_append.mp he2s2 with h | h
    · exact Or.inl h
    · right
      have hpw : List.Pairwise (fun a b : SuggestionEntry =>
          b.currentCount + b.historicalCount ≤ a.currentCount + a.historicalCount)
          ((List.take 5 ((suggestionCandidates cur hist declared).insertionSort
            (fun a b => b.currentCount + b.historicalCount ≤
              a.currentCount + a.historicalCount))) ++
          (List.drop 5 ((suggestionCandidates cur hist declared).insertionSort
            (fun a b => b.currentCount + b.historicalCount ≤
              a.currentCount + a.historicalCount)))) := by
        rw [hsplit]
        exact hsorted
      exact (List.pairwise_append.mp hpw).2.2 e he e2 h

/-- C4 amended: the selected historical evidence is the up-to-300 most
recent historical feature rows (not runs) for the industry; at most five
feature-opportunity INSIGHTs are emitted; each cites at most three sources
and only sources of current-run rows; the confidence of the insight built
from a suggestion is 70 hundredths when some current-run row contributed
its key and 55 otherwise; the candidate keys are exactly the non-declared
keys contributed by current or selected historical rows; and every emitted
suggestion ranks at least as high, by combined current-plus-historical
count, as every candidate left out. -/
theorem C4_amended_feature_opportunity_insights
    (current histTable : List FeatRow) (runId : String) (industry : Option String)
    (declared : List String) :
    (selectHistoricalFeatures histTable runId industry).length ≤ 300 ∧
    (featureOpportunityInsights current
      (selectHistoricalFeatures histTable runId industry) declared).length ≤ 5 ∧
    (∀ f ∈ featureOpportunityInsights current
        (selectHistoricalFeatures histTable runId industry) declared,
      f.citations.length ≤ 3 ∧ ∀ c ∈ f.citations, ∃ fr ∈ current, fr.sourceId = some c) ∧
    (∀ e ∈ featureSuggestions current
        (selectHistoricalFeatures histTable runId industry) declared,
      ((0 < e.currentCount) ↔
        ∃ fr ∈ current, contributes fr = true ∧ rowKey fr = e.normalized) ∧
      ∀ f, opportunityInsightOf e = some f →
        f.confidence = (if 0 < e.currentCount then 70 else 55)) ∧
    (∀ k : String,
      (∃ e ∈ suggestionCandidates current
          (selectHistoricalFeatures histTable runId industry) declared,
        e.normalized = k) ↔
      (declared.contains k = false ∧
        ∃ f ∈ current ++ selectHistoricalFeatures histTable runId industry,
          contributes f = true ∧ rowKey f = k)) ∧
    (∀ e ∈ featureSuggestions current
        (selectHistoricalFeatures histTable runId industry) declared,
      ∀ e2 ∈ suggestionCandidates current
          (selectHistoricalFeatures histTable runId industry) declared,
        e2 ∈ featureSuggestions current
          (selectHistoricalFeatures histTable runId industry) declared ∨
        e2.currentCount + e2.historicalCount ≤
          e.currentCount + e.historicalCount) := by
  obtain ⟨hlen5, hsub, hrank⟩ := featureSuggestions_spec current
    (selectHistoricalFeatures histTable runId industry) declared
  refine ⟨?_, ?_, ?_, ?_, ?_, ?_⟩
  · unfold selectHistoricalFeatures
    exact List.length_take_le 300 _
  · unfold featureOpportunityInsights
    exact le_trans (List.length_filterMap_le _ _) hlen5
  · intro f hf
    rcases List.mem_filterMap.mp hf with ⟨e, he, hoe⟩
    obtain ⟨hconf, hcite⟩ := opportunityInsightOf_fields hoe
    obtain ⟨h1, h2, h3, h4, h5⟩ := suggestionCandidates_spec current
      (selectHistoricalFeatures histTable runId industry) declared e (hsub e he)
    rw [hcite]
    refine ⟨List.length_take_le 3 _, ?_⟩
    intro c hc
    exact h3 c (List.take_subset 3 _ hc)
  · intro e he
    obtain ⟨h1, h2, h3, h4, h5⟩ := suggestionCandidates_spec current
      (selectHistoricalFeatures histTable runId industry) declared e (hsub e he)
    refine ⟨?_, fun f hoe => (opportunityInsightOf_fields hoe).1⟩
    rw [h1]
    constructor
    · intro hpos
      have hne : current.filter
          (fun f => contributes f && (rowKey f == e.normalized)) ≠ [] := by
        intro hnil
        rw [hnil] at hpos
        simp at hpos
      obtain ⟨fr, hfr⟩ := List.exists_mem_of_ne_nil _ hne
      obtain ⟨hfrm, hfrp⟩ := List.mem_filter.mp hfr
      simp only [Bool.and_eq_true, beq_iff_eq] at hfrp
      exact ⟨fr, hfrm, hfrp.1, hfrp.2⟩
    · rintro ⟨fr, hfrm, hc, hk⟩
      have hfin : fr ∈ current.filter
          (fun f => contributes f && (rowKey f == e.normalized)) :=
        List.mem_filter.mpr ⟨hfrm, by simp [hc, hk]⟩
      exact List.length_pos.mpr (List.ne_nil_of_mem hfin)
  · exact suggestionCandidates_cover current
      (selectHistoricalFeatures histTable runId industry) declared
  · exact hrank

def c4currentRow : FeatRow :=
  { name := "Chat", normalized := some "chat", defName := some "Chat",
    defNormalized := some "chat", featureDefinitionId := some "d",
    competitorName := some "Acme", sourceId := some "s1", runId := "r",
    runIndustry := none, createdAt := 5 }

/-- C4 witness: on a one-row current run the single emitted INSIGHT cites
s1, and the amended theorem instantiated there shows the citation comes
from a current-run row. -/
theorem C4_amended_feature_opportunity_insights_witness :
    ∃ fr ∈ [c4currentRow], fr.sourceId = some "s1" :=
  ((C4_amended_feature_opportunity_insights [c4currentRow] [] "r" none []).2.2.1
    { kind := .INSIGHT,
      text := "Opportunity: \"Chat\" appears across 1 competitor in this run (e.g., Acme). Consider adding or strengthening this capability to keep pace with the market.",
      confidence := 70,
      citations := ["s1"] }
    (by decide)).2 "s1" (by decide)

def c4rowA (i : Nat) : FeatRow :=
  { name := "A", normalized := some "a", defName := some "A", defNormalized := some "a",
    featureDefinitionId := some "d1", competitorName := none, sourceId := none,
    runId := "r1", runIndustry := none, createdAt := 1000 - i }

def c4rowZ : FeatRow :=
  { name := "Z", normalized := some "z", defName := some "Z", defNormalized := some "z",
    featureDefinitionId := some "d2", competitorName := none, sourceId := none,
    runId := "r2", runIndustry := none, createdAt := 0 }

/-- A historical feature table with 301 rows in run r1 and one row, feature
z, in the older run r2: only two historical runs in total. -/
def c4histTable : List FeatRow := (List.range 301).map c4rowA ++ [c4rowZ]

set_option maxRecDepth 4096 in
/-- C4 counterexample: the historical query takes the 300 most recent
feature rows, not the features of the 300 most recent runs.  With 301 rows
in the most recent run and feature z observed once in the second most
recent run, the code builds its map without z, although the table spans
only two historical runs and the spec-reading selection includes z. -/
theorem C4_counterexample_row_limit_not_run_limit :
    "z" ∉ ((featureSuggestions [] (selectHistoricalFeatures c4histTable "rX" none) []).map
      (fun e => e.normalized)) ∧
    "z" ∈ ((featureSuggestions [] (selectHistoricalBySpecRuns c4histTable "rX" none) []).map
      (fun e => e.normalized)) ∧
    (jsSetOfList (c4histTable.map (fun f => f.runId))).length = 2 := by
  refine ⟨by decide, by decide, by decide⟩

/-! ### Capability extraction (src/lib/extract/capabilities.ts), for claim C5 -/

/-- One hit produced by extractCapabilities, the CapabilityHit record of the
source. -/
structure CapabilityHit where
  category : String
  name : String
  normalized : String
  mention : String
deriving DecidableEq

/-- One curated group of RAW_SYNONYM_GROUPS. -/
structure SynonymGroup where
  display : String
  variants : List String

/-- One canonical capability entry of the synonym table. -/
structure CanonicalCapability where
  normalized : String
  display : String
deriving DecidableEq

/-- RAW_SYNONYM_GROUPS from capabilities.ts, verbatim. -/
def RAW_SYNONYM_GROUPS : List SynonymGroup := [
  { display := "Single Sign On",
    variants := ["Single Sign On", "Single Sign-On", "SSO", "Enterprise SSO", "SSO Support"] },
  { display := "Multi Factor Authentication",
    variants := ["Multi Factor Authentication", "Multi-Factor Authentication", "MFA",
      "Two Factor Authentication", "Two-Factor Authentication", "2FA",
      "Two Step Verification", "Two-Step Verification"] },
  { display := "Role Based Access Control",
    variants := ["Role Based Access Control", "Role-Based Access Control", "RBAC",
      "Role Management", "Role & Permission Management"] },
  { display := "Audit Logs",
    variants := ["Audit Logs", "Audit Log", "Audit Trails", "Audit Trail", "Activity Logs",
      "Security Logs"] },
  { display := "User Provisioning",
    variants := ["User Provisioning", "Automated Provisioning", "Directory Sync", "SCIM",
      "SCIM Provisioning"] },
  { display := "API Access",
    variants := ["API", "APIs", "REST API", "RESTful API", "GraphQL API", "GraphQL",
      "Public API", "Open API", "OpenAPI", "Developer API", "API Access"] },
  { display := "Workflow Automation",
    variants := ["Workflow Automation", "Workflow Automations", "Workflows", "Automation",
      "Automations", "Automation Builder", "Automated Workflows"] },
  { display := "Reporting & Analytics",
    variants := ["Reporting", "Analytics", "Analytics Dashboard", "Reporting Dashboard",
      "Insights", "Analytics & Reporting", "Reporting & Analytics", "Data Visualization"] },
  { display := "Integration Marketplace",
    variants := ["Integration Marketplace", "App Marketplace", "Marketplace",
      "Integration Directory", "Partner Integrations"] },
  { display := "User Management",
    variants := ["User Management", "User Administration", "User Admin", "User Manager"] },
  { display := "Team Management",
    variants := ["Team Management", "Team Permissions", "Team Roles", "Team Administration"] },
  { display := "Access Controls",
    variants := ["Access Controls", "Access Control", "Permission Management",
      "Permissions Management", "Permissions"] }]

/-- SINGULAR_EXCEPTIONS from capabilities.ts. -/
def SINGULAR_EXCEPTIONS : List String := ["analytics", "news", "access"]

/-- STOP_WORDS from capabilities.ts. -/
def STOP_WORDS : List String := ["and", "or", "the", "a", "an", "&", "with", "for"]

/-- singularize from capabilities.ts, on the character list of one token. -/
def singularize (token : List Char) : List Char :=
  if token.length ≤ 3 || SINGULAR_EXCEPTIONS.contains (String.mk token) then token
  else if List.isSuffixOf ['i', 'e', 's'] token then
    token.dropLast.dropLast.dropLast ++ ['y']
  else if List.isSuffixOf ['x', 'e', 's'] token || List.isSuffixOf ['s', 'e', 's'] token ||
      List.isSuffixOf ['c', 'h', 'e', 's'] token || List.isSuffixOf ['s', 'h', 'e', 's'] token then
    token.dropLast.dropLast
  else if List.isSuffixOf ['s'] token && !(List.isSuffixOf ['s', 's'] token) then
    token.dropLast
  else token

/-- normalizeCapabilityTerm from capabilities.ts: the normalised feature
string with empty and stop-word tokens removed and each remaining token
singularised. -/
def normalizeCapabilityTerm (term : String) : String :=
  let base := normalizeFeature term
  if base = "" then ""
  else
    let tokens := (base.toList.splitOn ' ').filter
      (fun t => !t.isEmpty && !(STOP_WORDS.contains (String.mk t)))
    String.mk (List.intercalate [' '] (tokens.map singularize))

/-- One group of the CAPABILITY_SYNONYM_MAP construction: a Map.set per
non-empty normalised variant, on the insertion-ordered association list that
models the JS Map. -/
def synonymMapStep (m : List (String × CanonicalCapability)) (g : SynonymGroup) :
    List (String × CanonicalCapability) :=
  let normalized := normalizeCapabilityTerm g.display
  if normalized = "" then m
  else
    let canonical : CanonicalCapability := { normalized := normalized, display := g.display }
    g.variants.foldl
      (fun acc v =>
        let variantNorm := normalizeCapabilityTerm v
        if variantNorm = "" then acc else alistSet variantNorm canonical acc)
      (alistSet normalized canonical m)

/-- CAPABILITY_SYNONYM_MAP from capabilities.ts, the result of the IIFE fold
over RAW_SYNONYM_GROUPS. -/
def CAPABILITY_SYNONYM_MAP : List (String × CanonicalCapability) :=
  RAW_SYNONYM_GROUPS.foldl synonymMapStep []

/-- String.prototype.toUpperCase, on the ASCII letters that can occur here. -/
def jsToUpperStr (s : String) : String := String.mk (s.toList.map Char.toUpper)

/-- canonicalizeCapability from capabilities.ts: synonym-table lookup first,
then the single-token acronym rules, then title-casing via
canonicalFeatureName. -/
def canonicalizeCapability (norm mention : String) : CanonicalCapability :=
  match alistGet norm CAPABILITY_SYNONYM_MAP with
  | some mapped => mapped
  | none =>
    if norm = "" then { normalized := norm, display := mention }
    else if !(norm.toList.contains ' ') && !(mention == "") &&
        Nat.ble mention.toList.length 6 && (mention == jsToUpperStr mention) then
      { normalized := norm, display := mention }
    else if !(norm.toList.contains ' ') && Nat.ble norm.toList.length 5 then
      { normalized := norm, display := jsToUpperStr norm }
    else
      { normalized := norm,
        display := if canonicalFeatureName norm = "" then mention else canonicalFeatureName norm }

/-! A small regular-expression engine covering exactly the constructs used by
CAT_PATTERNS, with JavaScript semantics: ordered alternation with
backtracking, greedy character-class repetition, case-insensitive literals
(the i flag), word boundaries, and numbered capture groups. -/

/-- A word character of the regex escape class w: [A-Za-z0-9_]. -/
def isWordChar (c : Char) : Bool :=
  (65 ≤ c.toNat && c.toNat ≤ 90) || (97 ≤ c.toNat && c.toNat ≤ 122) ||
    (48 ≤ c.toNat && c.toNat ≤ 57) || c == '_'

/-- The ASCII members of the regex whitespace class s; the patterns only
meet ASCII text here. -/
def isSpaceChar (c : Char) : Bool :=
  c == ' ' || c == '\t' || c == '\n' || c == '\r' || c.toNat == 11 || c.toNat == 12

/-- Regex abstract terms for the fragment used by CAT_PATTERNS.  lit is a
case-insensitive literal; reps is a greedy character-class repetition with a
lower bound and an optional upper bound (none meaning unbounded); alt is
ordered; grp is a numbered capture group; wb is a word boundary. -/
inductive RE where
  | eps : RE
  | wb : RE
  | lit : List Char → RE
  | reps : (Char → Bool) → Nat → Option Nat → RE
  | seq : RE → RE → RE
  | alt : RE → RE → RE
  | grp : Nat → RE → RE

/-- Character at a position, with an arbitrary default off the end (every
use is guarded by a bounds check). -/
def charAt (text : List Char) (i : Nat) : Char := text.getD i ' '

/-- Whether position i holds a word character (false past the end). -/
def wordAt (text : List Char) (i : Nat) : Bool :=
  decide (i < text.length) && isWordChar (charAt text i)

/-- The word-boundary test of the regex escape b at position i: word-ness
differs between the previous position and this one, out of range counting as
non-word. -/
def atWordBoundary (text : List Char) (i : Nat) : Bool :=
  (if i = 0 then false else wordAt text (i - 1)) != wordAt text i

/-- Case-insensitive literal match starting at position i, returning the end
position on success. -/
def litMatch : List Char → List Char → Nat → Option Nat
  | [], _, i => some i
  | p :: ps, text, i =>
    if decide (i < text.length) && (Char.toLower (charAt text i) == Char.toLower p) then
      litMatch ps text (i + 1)
    else none

/-- Capture groups of one match: group number paired with the captured
slice. -/
abbrev Groups : Type := List (Nat × List Char)

/-- All ways a term can match starting at position i, most preferred first:
the JS engine takes the first alternative and the longest repetition that
lets the rest of the pattern succeed, which is the head of this list after
sequencing. -/
def reMatch (text : List Char) : RE → Nat → List (Nat × Groups)
  | .eps, i => [(i, ([] : Groups))]
  | .wb, i => if atWordBoundary text i then [(i, ([] : Groups))] else []
  | .lit p, i =>
    match litMatch p text i with
    | some j => [(j, ([] : Groups))]
    | none => []
  | .reps p mn mx, i =>
    let avail := ((text.drop i).takeWhile p).length
    let top := match mx with | some m => Nat.min m avail | none => avail
    if top < mn then []
    else (List.range (top + 1 - mn)).map (fun k => (i + (top - k), ([] : Groups)))
  | .seq r1 r2, i =>
    (reMatch text r1 i).flatMap (fun jg =>
      (reMatch text r2 jg.1).map (fun jg2 => (jg2.1, jg.2 ++ jg2.2)))
  | .alt r1 r2, i => reMatch text r1 i ++ reMatch text r2 i
  | .grp n r, i =>
    (reMatch text r i).map (fun jg =>
      (jg.1, ((n, (text.drop i).take (jg.1 - i)) :: jg.2 : Groups)))

/-- One exec call of a global regex whose lastIndex is i: the first position
at or after i where the pattern matches, with the preferred match there,
returned as start, end and groups.  The first Nat argument is the scan
position, the second is fuel bounding the forward scan. -/
def execFromAux (re : RE) (text : List Char) : Nat → Nat → Option (Nat × Nat × Groups)
  | _, 0 => none
  | i, fuel + 1 =>
    if text.length < i then none
    else
      match reMatch text re i with
      | (j, g) :: _ => some (i, j, g)
      | [] => execFromAux re text (i + 1) fuel

/-- The while-exec loop of extractCapabilities: collect matches left to
right, resuming each time at the end of the previous match (every pattern of
CAT_PATTERNS only matches non-empty text, so lastIndex strictly advances and
the fuel of one unit per character plus one is enough). -/
def scanAux (re : RE) (text : List Char) : Nat → Nat → List (Nat × Nat × Groups)
  | _, 0 => []
  | i, fuel + 1 =>
    match execFromAux re text i (text.length + 1 - i) with
    | none => []
    | some (s, e, g) => (s, e, g) :: scanAux re text e fuel

/-- All matches of one pattern over the text, in order. -/
def scanRe (re : RE) (text : List Char) : List (Nat × Nat × Groups) :=
  scanAux re text 0 (text.length + 1)

/-- A literal regex piece from a pattern string. -/
def reLit (s : String) : RE := RE.lit s.toList

/-- Ordered alternation over a list of terms. -/
def altList : List RE → RE
  | [] => RE.eps
  | [r] => r
  | r :: rs => RE.alt r (altList rs)

/-- A boundary-delimited alternation with the alternation as capture group
1, the shape of eight of the nine category patterns. -/
def wordAlts (alts : List RE) : RE :=
  RE.seq RE.wb (RE.seq (RE.grp 1 (altList alts)) RE.wb)

/-- A literal followed by the regex optional letter s. -/
def reOptS (s : String) : RE :=
  RE.seq (reLit s) (RE.reps (fun c => Char.toLower c == 's') 0 (some 1))

/-- A letter, the class A to Z under the case-insensitive flag. -/
def isLetterChar (c : Char) : Bool :=
  (65 ≤ c.toNat && c.toNat ≤ 90) || (97 ≤ c.toNat && c.toNat ≤ 122)

/-- The bracket class of the integration-target capture: word characters,
space, hyphen, plus and dot. -/
def isIntegrandChar (c : Char) : Bool :=
  isWordChar c || c == ' ' || c == '-' || c == '+' || c == '.'

/-- First Integrations pattern: integrat(e|ion|ions) with a capitalised
target of 3 to 41 class characters, the target as group 2. -/
def integrationRE1 : RE :=
  RE.seq (reLit "integrat")
    (RE.seq (RE.grp 1 (altList [reLit "e", reLit "ion", reLit "ions"]))
      (RE.seq (reLit " with ")
        (RE.grp 2 (RE.seq (RE.reps isLetterChar 1 (some 1))
          (RE.reps isIntegrandChar 2 (some 40))))))

/-- Second Integrations pattern: known vendor names. -/
def integrationRE2 : RE := wordAlts [reLit "Shopify", reLit "Salesforce", reLit "HubSpot",
  reLit "Zapier", reLit "Stripe", reLit "Segment", reLit "Snowflake", reLit "Slack",
  reLit "Google Analytics"]

/-- The Security pattern. -/
def securityRE : RE := wordAlts [reLit "SSO", reLit "SAML", reLit "SCIM", reLit "RBAC",
  reLit "encryption at rest", reLit "encryption in transit", reLit "audit logs",
  reLit "MFA", reLit "2FA"]

/-- The Compliance pattern; SOC and ISO allow interior whitespace, PCI DSS an
optional hyphen or whitespace character. -/
def complianceRE : RE := wordAlts [
  RE.seq (reLit "SOC") (RE.seq (RE.reps isSpaceChar 0 none) (reLit "2")),
  reLit "HIPAA", reLit "GDPR",
  RE.seq (reLit "PCI") (RE.seq (RE.reps (fun c => c == '-' || isSpaceChar c) 0 (some 1))
    (reLit "DSS")),
  RE.seq (reLit "ISO") (RE.seq (RE.reps isSpaceChar 0 none) (reLit "27001")),
  reLit "BAA"]

/-- The API pattern. -/
def apiRE : RE := wordAlts [reLit "OpenAPI", reLit "Swagger", reLit "REST", reLit "GraphQL",
  reOptS "webhook", reOptS "SDK"]

/-- The Performance pattern; the uptime alternative is 99. then one or more
9s then a percent sign. -/
def performanceRE : RE := wordAlts [reLit "latency", reLit "throughput",
  RE.seq (reLit "99.") (RE.seq (RE.reps (fun c => c == '9') 1 none) (reLit "%")),
  reLit "SLA", reLit "RPS", reLit "QPS", reLit "cold start"]

/-- The Automation pattern. -/
def automationRE : RE := wordAlts [reOptS "workflow", reOptS "automation", reOptS "trigger",
  reLit "rules engine", reOptS "playbook"]

/-- The Analytics pattern. -/
def analyticsRE : RE := wordAlts [reOptS "dashboard", reLit "reporting", reLit "attribution",
  reLit "cohort", reLit "funnel"]

/-- The Permissions pattern. -/
def permissionsRE : RE := wordAlts [reLit "RBAC", reLit "ABAC", reOptS "role",
  reOptS "permission", reOptS "org", reOptS "team"]

/-- The Growth pattern. -/
def growthRE : RE := wordAlts [reLit "referral", reLit "invite", reLit "waitlist",
  reLit "viral", reLit "A/B", reOptS "experiment"]

/-- One entry of CAT_PATTERNS. -/
structure CatPattern where
  category : String
  patterns : List RE

/-- CAT_PATTERNS from capabilities.ts, in source order. -/
def CAT_PATTERNS : List CatPattern := [
  { category := "Integrations", patterns := [integrationRE1, integrationRE2] },
  { category := "Security", patterns := [securityRE] },
  { category := "Compliance", patterns := [complianceRE] },
  { category := "API", patterns := [apiRE] },
  { category := "Performance", patterns := [performanceRE] },
  { category := "Automation", patterns := [automationRE] },
  { category := "Analytics", patterns := [analyticsRE] },
  { category := "Permissions", patterns := [permissionsRE] },
  { category := "Growth", patterns := [growthRE] }]

/-- The mention of one match: group 2 if present, else group 1, else the
full matched slice, trimmed. -/
def mentionOf (text : List Char) (m : Nat × Nat × Groups) : String :=
  let raw :=
    match alistGetNat 2 m.2.2 with
    | some g2 => g2
    | none =>
      match alistGetNat 1 m.2.2 with
      | some g1 => g1
      | none => (text.drop m.1).take (m.2.1 - m.1)
  jsTrim (String.mk raw)

/-- The loop body of extractCapabilities once the mention is in hand: skip
when the normalised term is shorter than two characters, else canonicalize
and build the hit. -/
def hitOfMatchCore (category : String) (mention : String) : Option CapabilityHit :=
  let norm := normalizeCapabilityTerm mention
  if norm.toList.length < 2 then none
  else
    let canonical := canonicalizeCapability norm mention
    some { category := category, name := canonical.display,
           normalized := canonical.normalized, mention := mention }

/-- The loop body of extractCapabilities for one match. -/
def hitOfMatch (category : String) (text : List Char) (m : Nat × Nat × Groups) :
    Option CapabilityHit :=
  hitOfMatchCore category (mentionOf text m)

/-- All hits of one pattern for one category, in match order. -/
def hitsOfPattern (category : String) (re : RE) (text : List Char) : List CapabilityHit :=
  (scanRe re text).filterMap (hitOfMatch category text)

/-- The dedup key of extractCapabilities: category, a bar, the normalised
term. -/
def capabilityKey (h : CapabilityHit) : String := h.category ++ "|" ++ h.normalized

/-- First-wins deduplication by string key, the seen-Set filter at the end
of extractCapabilities. -/
def dedupByKeyAux {α : Type} (keyOf : α → String) : List α → List String → List α
  | [], _ => []
  | x :: rest, seen =>
    if seen.contains (keyOf x) then dedupByKeyAux keyOf rest seen
    else x :: dedupByKeyAux keyOf rest (keyOf x :: seen)

/-- The undeduplicated hits list: categories in order, patterns in order,
matches in order. -/
def allHits (text : String) : List CapabilityHit :=
  CAT_PATTERNS.flatMap (fun cat =>
    cat.patterns.flatMap (fun re => hitsOfPattern cat.category re text.toList))

/-- extractCapabilities from capabilities.ts. -/
def extractCapabilities (text : String) : List CapabilityHit :=
  dedupByKeyAux capabilityKey (allHits text) []

/-- The matches of the Security pattern over a text, with their positions
and groups. -/
def securityMatches (text : String) : List (Nat × Nat × Groups) :=
  scanRe securityRE text.toList

/-- The slice of the text covered by one match. -/
def matchSlice (text : String) (m : Nat × Nat × Groups) : List Char :=
  (text.toList.drop m.1).take (m.2.1 - m.1)

/-! Lemmas about the regex engine. -/

/-- Whether a term contains no capture group. -/
def groupFree : RE → Bool
  | .eps => true
  | .wb => true
  | .lit _ => true
  | .reps _ _ _ => true
  | .seq r1 r2 => groupFree r1 && groupFree r2
  | .alt r1 r2 => groupFree r1 && groupFree r2
  | .grp _ _ => false

theorem altList_groupFree {alts : List RE} (hf : ∀ r ∈ alts, groupFree r = true) :
    groupFree (altList alts) = true := by
  induction alts with
  | nil => rfl
  | cons a rest ih =>
    cases rest with
    | nil => exact hf a (List.mem_cons_self a [])
    | cons b rest2 =>
      simp only [altList, groupFree, Bool.and_eq_true]
      exact ⟨hf a (List.mem_cons_self a _),
        ih (fun r hr => hf r (List.mem_cons_of_mem a hr))⟩

/-- A group-free term reports no captures. -/
theorem reMatch_groupFree {text : List Char} : ∀ (r : RE), groupFree r = true →
    ∀ {i : Nat} {jg : Nat × Groups}, jg ∈ reMatch text r i → jg.2 = [] := by
  intro r
  induction r with
  | eps =>
    intro _ i jg hm
    simp only [reMatch, List.mem_singleton] at hm
    simp [hm]
  | wb =>
    intro _ i jg hm
    simp only [reMatch] at hm
    split at hm
    · simp only [List.mem_singleton] at hm
      simp [hm]
    · simp at hm
  | lit p =>
    intro _ i jg hm
    simp only [reMatch] at hm
    split at hm
    · simp only [List.mem_singleton] at hm
      simp [hm]
    · simp at hm
  | reps p mn mx =>
    intro _ i jg hm
    simp only [reMatch] at hm
    split at hm
    · simp at hm
    · rcases List.mem_map.mp hm with ⟨k, _, hk⟩
      simp [← hk]
  | seq r1 r2 ih1 ih2 =>
    intro hf i jg hm
    simp only [groupFree, Bool.and_eq_true] at hf
    obtain ⟨hf1, hf2⟩ := hf
    simp only [reMatch] at hm
    rcases List.mem_flatMap.mp hm with ⟨a, ha, hm2⟩
    rcases List.mem_map.mp hm2 with ⟨b, hb, hjg⟩
    rw [← hjg]
    simp [ih1 hf1 ha, ih2 hf2 hb]
  | alt r1 r2 ih1 ih2 =>
    intro hf i jg hm
    simp only [groupFree, Bool.and_eq_true] at hf
    obtain ⟨hf1, hf2⟩ := hf
    simp only [reMatch] at hm
    rcases List.mem_append.mp hm with h | h
    · exact ih1 hf1 h
    · exact ih2 hf2 h
  | grp n r ih =>
    intro hf
    simp [groupFree] at hf

/-- A successful exec is the preferred match of the pattern at the reported
start position. -/
theorem execFromAux_mem {re : RE} {text : List Char} :
    ∀ {fuel i s e g}, execFromAux re text i fuel = some (s, e, g) →
      (e, g) ∈ reMatch text re s := by
  intro fuel
  induction fuel with
  | zero =>
    intro i s e g h
    simp [execFromAux] at h
  | succ n ih =>
    intro i s e g h
    simp only [execFromAux] at h
    split at h
    · exact absurd h (by simp)
    · split at h
      · rename_i j g2 tail heq
        simp only [Option.some.injEq, Prod.mk.injEq] at h
        obtain ⟨rfl, rfl, rfl⟩ := h
        rw [heq]
        exact List.mem_cons_self _ _
      · exact ih h

/-- Every match reported by the scan loop is a match of the pattern at its
start position. -/
theorem scanAux_mem {re : RE} {text : List Char} :
    ∀ {fuel i m}, m ∈ scanAux re text i fuel →
      (m.2.1, m.2.2) ∈ reMatch text re m.1 := by
  intro fuel
  induction fuel with
  | zero =>
    intro i m h
    simp [scanAux] at h
  | succ n ih =>
    intro i m h
    simp only [scanAux] at h
    split at h
    · simp at h
    · rename_i s e g heq
      rcases List.mem_cons.mp h with h | h
      · subst h
        exact execFromAux_mem heq
      · exact ih h

/-- For a boundary-delimited alternation of group-free alternatives, the
groups of any match consist exactly of group 1 holding the matched slice. -/
theorem wordAlts_groups {text : List Char} (alts : List RE)
    (hf : ∀ r ∈ alts, groupFree r = true) {i : Nat} {jg : Nat × Groups}
    (hm : jg ∈ reMatch text (wordAlts alts) i) :
    jg.2 = [(1, (text.drop i).take (jg.1 - i))] := by
  rw [wordAlts] at hm
  simp only [reMatch] at hm
  rcases List.mem_flatMap.mp hm with ⟨a, ha, hm2⟩
  have haeq : a = (i, ([] : Groups)) := by
    split at ha
    · simpa using ha
    · simp at ha
  subst haeq
  rcases List.mem_map.mp hm2 with ⟨b, hb, hjg⟩
  rcases List.mem_flatMap.mp hb with ⟨c, hc, hb2⟩
  rcases List.mem_map.mp hc with ⟨d, hd, hceq⟩
  rcases List.mem_map.mp hb2 with ⟨w, hw, hbeq⟩
  have hweq : w = (c.1, ([] : Groups)) := by
    split at hw
    · simpa using hw
    · simp at hw
  subst hweq
  have hd2 : d.2 = [] := reMatch_groupFree (altList alts) (altList_groupFree hf) hd
  rw [← hjg, ← hbeq, ← hceq]
  simp [hd2]

/-- The groups of every Security-pattern match: group 1 holds the matched
slice. -/
theorem securityMatches_groups {text : String} {m : Nat × Nat × Groups}
    (hm : m ∈ securityMatches text) :
    m.2.2 = [(1, matchSlice text m)] := by
  have hmem : (m.2.1, m.2.2) ∈ reMatch text.toList securityRE m.1 := scanAux_mem hm
  have := wordAlts_groups
    [reLit "SSO", reLit "SAML", reLit "SCIM", reLit "RBAC",
      reLit "encryption at rest", reLit "encryption in transit", reLit "audit logs",
      reLit "MFA", reLit "2FA"] (by decide) hmem
  simpa [matchSlice] using this

/-! Inversion of Char.toLower on the three characters of 2FA. -/

theorem toLower_eq_two {c : Char} (h : Char.toLower c = '2') : c = '2' := by
  simp only [Char.toLower] at h
  by_cases hc : c.toNat ≥ 65 ∧ c.toNat ≤ 90
  · rw [if_pos hc] at h
    obtain ⟨hl, hu⟩ := hc
    exfalso
    interval_cases hv : c.toNat <;> simp_all
  · rw [if_neg hc] at h
    exact h

theorem toLower_eq_f {c : Char} (h : Char.toLower c = 'f') : c = 'f' ∨ c = 'F' := by
  simp only [Char.toLower] at h
  by_cases hc : c.toNat ≥ 65 ∧ c.toNat ≤ 90
  · rw [if_pos hc] at h
    right
    obtain ⟨hl, hu⟩ := hc
    have h70 : c.toNat = 70 := by
      by_contra hne
      interval_cases hv : c.toNat <;> simp_all
    calc c = Char.ofNat c.toNat := (Char.ofNat_toNat c).symm
    _ = 'F' := by rw [h70]
  · rw [if_neg hc] at h
    exact Or.inl h

theorem toLower_eq_a {c : Char} (h : Char.toLower c = 'a') : c = 'a' ∨ c = 'A' := by
  simp only [Char.toLower] at h
  by_cases hc : c.toNat ≥ 65 ∧ c.toNat ≤ 90
  · rw [if_pos hc] at h
    right
    obtain ⟨hl, hu⟩ := hc
    have h65 : c.toNat = 65 := by
      by_contra hne
      interval_cases hv : c.toNat <;> simp_all
    calc c = Char.ofNat c.toNat := (Char.ofNat_toNat c).symm
    _ = 'A' := by rw [h65]
  · rw [if_neg hc] at h
    exact Or.inl h

/-- The four character lists whose lowercase image is 2fa. -/
theorem ci2fa_cases {sl : List Char} (h : sl.map Char.toLower = ['2', 'f', 'a']) :
    sl = ['2', 'f', 'a'] ∨ sl = ['2', 'f', 'A'] ∨ sl = ['2', 'F', 'a'] ∨
      sl = ['2', 'F', 'A'] := by
  rcases sl with _ | ⟨c1, _ | ⟨c2, _ | ⟨c3, _ | ⟨c4, t⟩⟩⟩⟩ <;> simp_all
  obtain ⟨h1, h2, h3⟩ := h
  obtain rfl := toLower_eq_two h1
  rcases toLower_eq_f h2 with rfl | rfl <;> rcases toLower_eq_a h3 with rfl | rfl <;> simp

/-- When group 1 is the only group, the mention is its trimmed capture. -/
theorem mentionOf_groups {text : List Char} {m : Nat × Nat × Groups}
    {sl : List Char} (hg : m.2.2 = [(1, sl)]) :
    mentionOf text m = jsTrim (String.mk sl) := by
  simp only [mentionOf, hg, alistGetNat]
  norm_num

/-- The Security hit derived from a 2FA mention. -/
def mfaHitOf (mention : String) : CapabilityHit :=
  { category := "Security", name := "Multi Factor Authentication",
    normalized := "multi factor authentication", mention := mention }

theorem hitOfMatchCore_2fa {sl : List Char} (h : sl.map Char.toLower = ['2', 'f', 'a']) :
    hitOfMatchCore "Security" (jsTrim (String.mk sl)) =
      some (mfaHitOf (jsTrim (String.mk sl))) := by
  rcases ci2fa_cases h with rfl | rfl | rfl | rfl <;> decide

theorem security_hitOfMatch (text : List Char) {m : Nat × Nat × Groups} {sl : List Char}
    (hg : m.2.2 = [(1, sl)]) (hsl : sl.map Char.toLower = ['2', 'f', 'a']) :
    hitOfMatch "Security" text m = some (mfaHitOf (jsTrim (String.mk sl))) := by
  rw [hitOfMatch, mentionOf_groups hg]
  exact hitOfMatchCore_2fa hsl

/-- Every hit of one pattern carries that pattern category. -/
theorem hitsOfPattern_category {category : String} {re : RE} {text : List Char}
    {h : CapabilityHit} (hm : h ∈ hitsOfPattern category re text) :
    h.category = category := by
  rcases List.mem_filterMap.mp hm with ⟨m, _, heq⟩
  simp only [hitOfMatch, hitOfMatchCore] at heq
  split at heq
  · exact absurd heq (by simp)
  · simp only [Option.some.injEq] at heq
    rw [← heq]

/-! The seen-Set dedup filter, generically by string key. -/

theorem dedupByKeyAux_subset {α : Type} (keyOf : α → String) :
    ∀ (l : List α) (seen : List String) {x : α},
      x ∈ dedupByKeyAux keyOf l seen → x ∈ l := by
  intro l
  induction l with
  | nil =>
    intro seen x h
    simp [dedupByKeyAux] at h
  | cons a rest ih =>
    intro seen x h
    simp only [dedupByKeyAux] at h
    split at h
    · exact List.mem_cons_of_mem a (ih seen h)
    · rcases List.mem_cons.mp h with rfl | h
      · exact List.mem_cons_self x rest
      · exact List.mem_cons_of_mem a (ih _ h)

theorem dedupByKeyAux_key_notin {α : Type} (keyOf : α → String) :
    ∀ (l : List α) (seen : List String) {x : α},
      x ∈ dedupByKeyAux keyOf l seen → seen.contains (keyOf x) = false := by
  intro l
  induction l with
  | nil =>
    intro seen x h
    simp [dedupByKeyAux] at h
  | cons a rest ih =>
    intro seen x h
    simp only [dedupByKeyAux] at h
    split at h
    · exact ih seen h
    · rename_i hna
      rcases List.mem_cons.mp h with rfl | h
      · simpa using hna
      · have hh := ih _ h
        simp only [List.contains_cons, Bool.or_eq_false_iff] at hh
        exact hh.2

theorem dedupByKeyAux_pairwise {α : Type} (keyOf : α → String) :
    ∀ (l : List α) (seen : List String),
      (dedupByKeyAux keyOf l seen).Pairwise (fun a b => keyOf a ≠ keyOf b) := by
  intro l
  induction l with
  | nil =>
    intro seen
    simp [dedupByKeyAux]
  | cons a rest ih =>
    intro seen
    simp only [dedupByKeyAux]
    split
    · exact ih seen
    · refine List.Pairwise.cons ?_ (ih _)
      intro b hb hkey
      have hf := dedupByKeyAux_key_notin keyOf rest (keyOf a :: seen) hb
      simp only [List.contains_cons, Bool.or_eq_false_iff] at hf
      have : (keyOf b == keyOf a) = true := beq_iff_eq.mpr hkey.symm
      rw [this] at hf
      exact absurd hf.1 (by simp)

theorem dedupByKeyAux_exists {α : Type} (keyOf : α → String) :
    ∀ (l : List α) (seen : List String) {x : α}, x ∈ l →
      seen.contains (keyOf x) = false →
      ∃ y, y ∈ dedupByKeyAux keyOf l seen ∧ keyOf y = keyOf x ∧ y ∈ l := by
  intro l
  induction l with
  | nil =>
    intro seen x h
    simp at h
  | cons a rest ih =>
    intro seen x hx hns
    simp only [dedupByKeyAux]
    split
    · rename_i hseen
      rcases List.mem_cons.mp hx with rfl | hx2
      · rw [hns] at hseen
        cases hseen
      · obtain ⟨y, hy1, hy2, hy3⟩ := ih seen hx2 hns
        exact ⟨y, hy1, hy2, List.mem_cons_of_mem a hy3⟩
    · by_cases hk : keyOf a = keyOf x
      · exact ⟨a, List.mem_cons_self _ _, hk, List.mem_cons_self _ _⟩
      · rcases List.mem_cons.mp hx with rfl | hx2
        · exact absurd rfl hk
        · have hns2 : (keyOf a :: seen).contains (keyOf x) = false := by
            simp only [List.contains_cons, Bool.or_eq_false_iff]
            exact ⟨beq_eq_false_iff_ne.mpr (fun he => hk he.symm), hns⟩
          obtain ⟨y, hy1, hy2, hy3⟩ := ih _ hx2 hns2
          exact ⟨y, List.mem_cons_of_mem a hy1, hy2, List.mem_cons_of_mem a hy3⟩

/-! Reading the category back off a dedup key. -/

theorem takeWhile_bar : ∀ (c : List Char), '|' ∉ c → ∀ rest : List Char,
    (c ++ '|' :: rest).takeWhile (fun x => !(x == '|')) = c := by
  intro c
  induction c with
  | nil =>
    intro _ rest
    simp [List.takeWhile_cons]
  | cons a as ih =>
    intro hc rest
    have ha : (a == '|') = false :=
      beq_eq_false_iff_ne.mpr (fun h => hc (List.mem_cons.mpr (Or.inl h.symm)))
    simp only [List.cons_append, List.takeWhile_cons, ha, Bool.not_false, if_true]
    rw [ih (fun hmem => hc (List.mem_cons_of_mem a hmem)) rest]

theorem key_category_inj {c1 c2 n1 n2 : String}
    (h1 : '|' ∉ c1.data) (h2 : '|' ∉ c2.data)
    (he : c1 ++ "|" ++ n1 = c2 ++ "|" ++ n2) : c1 = c2 := by
  have hd := congrArg String.data he
  simp only [String.data_append] at hd
  have hd2 : c1.data ++ '|' :: n1.data = c2.data ++ '|' :: n2.data := by
    simpa [List.append_assoc] using hd
  have ht := congrArg (List.takeWhile (fun x => !(x == '|'))) hd2
  rw [takeWhile_bar c1.data h1 n1.data, takeWhile_bar c2.data h2 n2.data] at ht
  cases c1
  cases c2
  exact congrArg String.mk ht

theorem catPatterns_noBar : ∀ cat ∈ CAT_PATTERNS, '|' ∉ cat.category.data := by decide

theorem mem_allHits {text : String} {h : CapabilityHit} (hm : h ∈ allHits text) :
    ∃ cat ∈ CAT_PATTERNS, ∃ re ∈ cat.patterns,
      h ∈ hitsOfPattern cat.category re text.toList ∧ h.category = cat.category := by
  simp only [allHits] at hm
  rcases List.mem_flatMap.mp hm with ⟨cat, hcat, hm2⟩
  rcases List.mem_flatMap.mp hm2 with ⟨re, hre, hm3⟩
  exact ⟨cat, hcat, re, hre, hm3, hitsOfPattern_category hm3⟩

/-- A hit whose dedup key names the Security canonical came from the
Security category: no category name contains a bar, so the key determines
the category. -/
theorem allHits_category_of_key {text : String} {h : CapabilityHit}
    (hm : h ∈ allHits text)
    (hk : capabilityKey h = "Security" ++ "|" ++ "multi factor authentication") :
    h.category = "Security" := by
  obtain ⟨cat, hcat, re, hre, hmem, hcateq⟩ := mem_allHits hm
  have hnb : '|' ∉ h.category.data := by
    rw [hcateq]
    exact catPatterns_noBar cat hcat
  have hk2 : h.category ++ "|" ++ h.normalized =
      "Security" ++ "|" ++ "multi factor authentication" := hk
  exact key_category_inj hnb (by decide) hk2

/-- Under the hypothesis that every Security-pattern match reads 2FA, every
Security-category hit of the raw hit list carries the synonym-table
canonical fields. -/
theorem allHits_security {text : String} {h : CapabilityHit}
    (H2 : ∀ m ∈ securityMatches text, (matchSlice text m).map Char.toLower = ['2', 'f', 'a'])
    (hm : h ∈ allHits text) (hcat : h.category = "Security") :
    h.name = "Multi Factor Authentication" ∧
      h.normalized = "multi factor authentication" := by
  obtain ⟨cat, hcatmem, re, hre, hmem, hcateq⟩ := mem_allHits hm
  rw [hcat] at hcateq
  simp only [CAT_PATTERNS, List.mem_cons, List.not_mem_nil, or_false] at hcatmem
  rcases hcatmem with rfl | rfl | rfl | rfl | rfl | rfl | rfl | rfl | rfl <;>
    first
      | exact absurd hcateq (by decide)
      | skip
  obtain rfl := List.mem_singleton.mp hre
  have hmem2 : h ∈ hitsOfPattern "Security" securityRE text.toList := hmem
  rcases List.mem_filterMap.mp hmem2 with ⟨m, hmmem, hsome⟩
  have hmmem2 : m ∈ securityMatches text := hmmem
  have hg := securityMatches_groups hmmem2
  rw [security_hitOfMatch text.toList hg (H2 m hmmem2)] at hsome
  obtain rfl := Option.some.inj hsome
  exact ⟨rfl, rfl⟩

/-- A text containing the substrings 2FA and Two-Factor Authentication next
to a third Security keyword. -/
def c5text : String := "We support 2FA and Two-Factor Authentication plus SSO."

/-- C5 counterexample: this text contains both the substrings 2FA and
Two-Factor Authentication, yet extractCapabilities yields two
Security-category hits, not one: the Security pattern also fires on SSO,
which canonicalizes to a different normalized key.  (The spelled-out
Two-Factor Authentication itself is not a Security keyword; only the 2FA
occurrence reaches the Multi Factor Authentication canonical.) -/
theorem C5_counterexample_extra_security_keyword :
    strIncludes c5text "2FA" = true ∧
    strIncludes c5text "Two-Factor Authentication" = true ∧
    ((extractCapabilities c5text).filter (fun h => h.category == "Security")).length = 2 := by
  decide

/-- C5 (amended): consider any text that contains the substring Two-Factor
Authentication, on which the Security pattern matches at least once, and
whose every Security-pattern match reads 2FA up to letter case (that is, the
only Security keyword occurrences in the text are boundary-delimited 2FA
mentions).  Then extractCapabilities yields exactly one Security-category
hit; every Security-category hit carries the synonym-table canonical fields,
name Multi Factor Authentication and normalized multi factor authentication;
and the synonym table sends the normalised form of Two-Factor Authentication
to that same canonical entry, so a hit from either mention carries identical
canonical fields. -/
theorem C5_amended_security_synonym_merging (text : String)
    (_h0 : strIncludes text "Two-Factor Authentication" = true)
    (h1 : securityMatches text ≠ [])
    (h2 : ∀ m ∈ securityMatches text, (matchSlice text m).map Char.toLower = ['2', 'f', 'a']) :
    ((extractCapabilities text).filter (fun h => h.category == "Security")).length = 1 ∧
    (∀ h ∈ (extractCapabilities text).filter (fun h => h.category == "Security"),
      h.name = "Multi Factor Authentication" ∧
        h.normalized = "multi factor authentication") ∧
    alistGet (normalizeCapabilityTerm "Two-Factor Authentication") CAPABILITY_SYNONYM_MAP =
      some { normalized := "multi factor authentication",
             display := "Multi Factor Authentication" } := by
  have hall : ∀ h ∈ (extractCapabilities text).filter (fun h => h.category == "Security"),
      h.name = "Multi Factor Authentication" ∧
        h.normalized = "multi factor authentication" := by
    intro h hh
    obtain ⟨hmemdedup, hcatb⟩ := List.mem_filter.mp hh
    have hcat : h.category = "Security" := by simpa using hcatb
    have hmemall : h ∈ allHits text :=
      dedupByKeyAux_subset capabilityKey (allHits text) [] hmemdedup
    exact allHits_security h2 hmemall hcat
  obtain ⟨m0, rest, hms⟩ : ∃ m0 rest, securityMatches text = m0 :: rest := by
    cases hsm : securityMatches text with
    | nil => exact absurd hsm h1
    | cons a b => exact ⟨a, b, rfl⟩
  have hm0 : m0 ∈ securityMatches text := by
    rw [hms]
    exact List.mem_cons_self _ _
  have hg0 := securityMatches_groups hm0
  have hf0 := security_hitOfMatch text.toList hg0 (h2 m0 hm0)
  have hhit : mfaHitOf (jsTrim (String.mk (matchSlice text m0))) ∈
      hitsOfPattern "Security" securityRE text.toList :=
    List.mem_filterMap.mpr ⟨m0, hm0, hf0⟩
  have hinall : mfaHitOf (jsTrim (String.mk (matchSlice text m0))) ∈ allHits text := by
    simp only [allHits]
    refine List.mem_flatMap.mpr
      ⟨{ category := "Security", patterns := [securityRE] }, ?_, ?_⟩
    · simp only [CAT_PATTERNS]
      exact List.mem_cons_of_mem _ (List.mem_cons_self _ _)
    · exact List.mem_flatMap.mpr ⟨securityRE, List.mem_cons_self _ _, hhit⟩
  obtain ⟨y, hy1, hy2, hy3⟩ := dedupByKeyAux_exists capabilityKey (allHits text) []
    hinall (by rfl)
  have hycat : y.category = "Security" := by
    refine allHits_category_of_key hy3 ?_
    rw [hy2]
    rfl
  have hysec : y ∈ (extractCapabilities text).filter (fun h => h.category == "Security") :=
    List.mem_filter.mpr ⟨hy1, by simp [hycat]⟩
  have hpw : ((extractCapabilities text).filter
        (fun h => h.category == "Security")).Pairwise
      (fun a b => capabilityKey a ≠ capabilityKey b) :=
    List.Pairwise.sublist (List.filter_sublist _)
      (dedupByKeyAux_pairwise capabilityKey (allHits text) [])
  have hkeys : ∀ h ∈ (extractCapabilities text).filter (fun h => h.category == "Security"),
      capabilityKey h = "Security" ++ "|" ++ "multi factor authentication" := by
    intro h hh
    have hfields := hall h hh
    have hcat : h.category = "Security" := by
      obtain ⟨_, hcatb⟩ := List.mem_filter.mp hh
      simpa using hcatb
    show h.category ++ "|" ++ h.normalized = _
    rw [hcat, hfields.2]
  refine ⟨?_, hall, by decide⟩
  cases hsec : (extractCapabilities text).filter (fun h => h.category == "Security") with
  | nil =>
    rw [hsec] at hysec
    simp at hysec
  | cons a tail =>
    cases tail with
    | nil => rfl
    | cons b tail2 =>
      exfalso
      rw [hsec] at hpw hkeys
      have hab : capabilityKey a ≠ capabilityKey b :=
        (List.pairwise_cons.mp hpw).1 b (List.mem_cons_self _ _)
      have ha := hkeys a (List.mem_cons_self _ _)
      have hb := hkeys b (List.mem_cons_of_mem a (List.mem_cons_self _ _))
      exact hab (ha.trans hb.symm)

/-- A text with the two synonym mentions and no other Security keyword. -/
def c5textOk : String := "We offer 2FA and Two-Factor Authentication."

/-- Witness for C5: the hypotheses of the amended theorem hold on a concrete
text and the theorem then yields the single Security hit. -/
theorem C5_amended_security_synonym_merging_witness :
    securityMatches c5textOk ≠ [] ∧
    ((extractCapabilities c5textOk).filter (fun h => h.category == "Security")).length = 1 :=
  ⟨by decide,
    (C5_amended_security_synonym_merging c5textOk (by decide) (by decide) (by decide)).1⟩

end NexIntel
